import Mathlib

/-!
Verification development for the `pdft` PDF merge tool (`src/main.rs`).

The merge algorithm of `merge_pdfs` is shallowly embedded below.  Identifiers
are object numbers (the generation component is fixed at 0 throughout the
program), dictionaries are insertion-ordered association lists with unique
keys, and the `BTreeMap` accumulators of the Rust code are modelled as
key-sorted association lists built by an ordered insert.

The program delegates a few primitives to the external `lopdf` crate, which is
not part of this repository's sources; those primitives are modelled from the
specification (each such definition carries a doc comment starting with
"Modelled from the spec:").  Everything else is translated directly from
`src/main.rs`.
-/

namespace Pdft

/-- PDF object values (lopdf `Object`), shallowly embedded.  References carry
an identifier (object number; generations are fixed at 0). -/
inductive Obj where
  | null : Obj
  | boolean : Bool → Obj
  | integer : Int → Obj
  | name : String → Obj
  | string : String → Obj
  | reference : Nat → Obj
  | array : List Obj → Obj
  | dict : List (String × Obj) → Obj
  | stream : List (String × Obj) → List Nat → Obj

/-- Dictionaries: insertion-ordered association lists of key/value pairs. -/
abbrev Dict := List (String × Obj)

/-- First-match lookup in a dictionary (lopdf `Dictionary::get`). -/
def dictGet (k : String) : Dict → Option Obj
  | [] => none
  | (k', v) :: t => if k' = k then some v else dictGet k t

/-- Set a key (lopdf `Dictionary::set`): an existing key keeps its position
and is overwritten, a new key is appended at the end. -/
def dictSet (k : String) (v : Obj) : Dict → Dict
  | [] => [(k, v)]
  | (k', v') :: t => if k' = k then (k, v) :: t else (k', v') :: dictSet k v t

/-- Remove a key (lopdf `Dictionary::remove`). -/
def dictRemove (k : String) : Dict → Dict
  | [] => []
  | (k', v) :: t => if k' = k then dictRemove k t else (k', v) :: dictRemove k t

/-- Modelled from the spec: lopdf `Dictionary::extend` (code not in src/).
Every entry of `other` is written into `self`, overwriting entries already
present, so that at the single call site (§4.3 page-tree-root consolidation,
where `self` is the later-encountered dictionary and `other` the accumulated
earlier one) a field already set by an earlier-encountered page-tree root
takes precedence and fields from later ones are added only if absent. -/
def dictExtend (self other : Dict) : Dict :=
  other.foldl (fun acc kv => dictSet kv.1 kv.2 acc) self

/-- Keys of a dictionary, in order. -/
def dictKeys (d : Dict) : List String := d.map Prod.fst

/-- The type discriminator of an object (lopdf `Object::type_name`, with the
`unwrap_or("")` of `main.rs` line 180 folded in): the `Type` name entry of a
dictionary or stream dictionary, and `""` otherwise. -/
def typeNameOf : Obj → String
  | Obj.dict d =>
      match dictGet "Type" d with
      | some (Obj.name s) => s
      | _ => ""
  | Obj.stream d _ =>
      match dictGet "Type" d with
      | some (Obj.name s) => s
      | _ => ""
  | _ => ""

/-- View an object as a dictionary (lopdf `Object::as_dict`): succeeds only
on the dictionary constructor. -/
def asDict : Obj → Option Dict
  | Obj.dict d => some d
  | _ => none

mutual

/-- Rewrite every reference identifier in an object with `f`, at arbitrary
nesting depth (the reference-rewrite primitive shared by both renumbering
passes, §4.1/§4.5). -/
def mapRefs (f : Nat → Nat) : Obj → Obj
  | Obj.null => Obj.null
  | Obj.boolean b => Obj.boolean b
  | Obj.integer n => Obj.integer n
  | Obj.name s => Obj.name s
  | Obj.string s => Obj.string s
  | Obj.reference i => Obj.reference (f i)
  | Obj.array xs => Obj.array (mapRefsL f xs)
  | Obj.dict d => Obj.dict (mapRefsD f d)
  | Obj.stream d p => Obj.stream (mapRefsD f d) p

/-- Rewrite references in a list of objects. -/
def mapRefsL (f : Nat → Nat) : List Obj → List Obj
  | [] => []
  | x :: t => mapRefs f x :: mapRefsL f t

/-- Rewrite references in a dictionary's values. -/
def mapRefsD (f : Nat → Nat) : List (String × Obj) → List (String × Obj)
  | [] => []
  | (k, v) :: t => (k, mapRefs f v) :: mapRefsD f t

end

/-- A bookmark (lopdf `Bookmark`, spec §4.4): label, display color, the
indentation level, and the target page identifier; `parent` is the optional
parent bookmark of `add_bookmark` (always `None` in this program, i.e.
top-level).  The constant color `[0.0, 0.0, 1.0]` of `main.rs` line 156 is
recorded as the exact triple `(0, 0, 1)`. -/
structure Bookmark where
  title : String
  color : Nat × Nat × Nat
  level : Nat
  target : Nat
  parent : Option Nat
deriving DecidableEq

/-- A document graph (lopdf `Document`): the object map, the declared maximum
identifier, the trailer dictionary, the version string, the ordered page
sequence, and the bookmark table.

The `pages` field is Modelled from the spec: lopdf `Document::get_pages`
(the Page Tree Walker §4.2, code not in src/) returns the identifiers of the
page nodes of the graph in left-to-right document order; that ordered
sequence is carried as data on the graph. -/
structure Doc where
  objects : List (Nat × Obj)
  maxId : Nat
  trailer : Dict
  version : String
  pages : List Nat
  bookmarks : List Bookmark

instance : Inhabited Doc := ⟨⟨[], 0, [], "", [], []⟩⟩

/-- First-match lookup of an identifier in an object list. -/
def aget (k : Nat) : List (Nat × Obj) → Option Obj
  | [] => none
  | e :: t => if e.1 = k then some e.2 else aget k t

/-- Object lookup on a document (lopdf `Document::get_object`); the `unwrap`
at `main.rs` line 165 is total on well-formed graphs, a missing identifier is
modelled as `Obj.null`. -/
def getObjD (d : Doc) (id : Nat) : Obj :=
  (aget id d.objects).getD Obj.null

/-- Ordered insert into a key-sorted association list (`BTreeMap::insert`):
keys are kept strictly ascending and an equal key is overwritten. -/
def binsert (e : Nat × Obj) : List (Nat × Obj) → List (Nat × Obj)
  | [] => [e]
  | x :: t =>
      if e.1 < x.1 then e :: x :: t
      else if e.1 = x.1 then e :: t
      else x :: binsert e t

/-- Insert a sequence of entries into a key-sorted association list
(`BTreeMap::extend`). -/
def bextend (m : List (Nat × Obj)) (es : List (Nat × Obj)) : List (Nat × Obj) :=
  es.foldl (fun a e => binsert e a) m

/-- Modelled from the spec: lopdf `Document::renumber_objects_with` (code not
in src/), per §4.1: called with base `b` (offset `b - 1`; "offset 0, i.e.
base 1, for the first graph"), it shifts every identifier upward by the
offset, rewrites every reference anywhere in the graph consistently, and the
declared maximum identifier is shifted alike.  The page sequence lives in the
same identifier space and is shifted with it. -/
def renumberWith (b : Nat) (d : Doc) : Doc :=
  let off := b - 1
  { d with
    objects := d.objects.map (fun e => (e.1 + off, mapRefs (· + off) e.2))
    maxId := d.maxId + off
    trailer := mapRefsD (· + off) d.trailer
    pages := d.pages.map (· + off) }

/-- State threaded through the per-document loop of `merge_pdfs`
(`main.rs` lines 137-170): the running base `max_id`, the bookmark label
counter `pagenum`, the accumulated `documents_pages` and `documents_objects`
maps, and the bookmarks added to the fresh output document so far. -/
structure LoopSt where
  maxId : Nat
  pagenum : Nat
  docPages : List (Nat × Obj)
  docObjects : List (Nat × Obj)
  marks : List Bookmark

/-- The page entries contributed by one (already renumbered) document:
each page identifier paired with its object, in document order
(`doc.get_pages().into_values().map(...)`, lines 150-166). -/
def perDocEntries (d : Doc) : List (Nat × Obj) :=
  d.pages.map (fun p => (p, getObjD d p))

/-- One iteration of the `for mut doc in documents` loop (lines 143-170):
renumber the document at the running base, advance the base past its new
maximum, create one bookmark for its first page (if any), collect its page
entries into a per-document map and extend the global maps. -/
def stepDoc (st : LoopSt) (d0 : Doc) : LoopSt :=
  let d := renumberWith st.maxId d0
  let newMax := d.maxId + 1
  let entries := bextend [] (perDocEntries d)
  match d.pages with
  | [] =>
      { maxId := newMax, pagenum := st.pagenum,
        docPages := bextend st.docPages entries,
        docObjects := bextend st.docObjects d.objects,
        marks := st.marks }
  | p :: _ =>
      { maxId := newMax, pagenum := st.pagenum + 1,
        docPages := bextend st.docPages entries,
        docObjects := bextend st.docObjects d.objects,
        marks := st.marks ++
          [{ title := "Page_" ++ toString st.pagenum, color := (0, 0, 1),
             level := 0, target := p, parent := none }] }

/-- The per-document loop, started from `max_id = 1`, `pagenum = 1` and empty
accumulators (lines 137-140). -/
def loopSt (docs : List Doc) : LoopSt :=
  docs.foldl stepDoc ⟨1, 1, [], [], []⟩

/-- The composite `documents_objects` map after the loop. -/
def docObjectsOf (docs : List Doc) : List (Nat × Obj) :=
  (loopSt docs).docObjects

/-- The composite `documents_pages` map after the loop. -/
def docPagesOf (docs : List Doc) : List (Nat × Obj) :=
  (loopSt docs).docPages

/-- Root consolidation state (lines 172-174): the optional retained
`Catalog` and `Pages` pairs and the objects inserted into the fresh output
document so far. -/
structure Consol where
  catalog : Option (Nat × Obj)
  pagesObj : Option (Nat × Obj)
  objects : List (Nat × Obj)

/-- One step of the consolidation fold (lines 177-220), keyed on the type
discriminator: `Catalog` keeps the first identifier and the current content;
`Pages` (when the object is a dictionary) keeps the first identifier and
extends the current dictionary with the accumulated one; `Page`, `Outlines`
and `Outline` are skipped; everything else is inserted into the output
object set. -/
def consolStep (c : Consol) (e : Nat × Obj) : Consol :=
  let t := typeNameOf e.2
  if t = "Catalog" then
    { c with catalog := some (match c.catalog with
        | some (id, _) => id
        | none => e.1, e.2) }
  else if t = "Pages" then
    match asDict e.2 with
    | some dd =>
        let dd' := match c.pagesObj with
          | some (_, old) =>
              match asDict old with
              | some oldD => dictExtend dd oldD
              | none => dd
          | none => dd
        { c with pagesObj := some (match c.pagesObj with
            | some (id, _) => id
            | none => e.1, Obj.dict dd') }
    | none => c
  else if t = "Page" then c
  else if t = "Outlines" then c
  else if t = "Outline" then c
  else { c with objects := binsert e c.objects }

/-- The consolidation fold over a (key-sorted) object list. -/
def consolidate (L : List (Nat × Obj)) : Consol :=
  L.foldl consolStep { catalog := none, pagesObj := none, objects := [] }

/-- Consolidation of the composite object set of a merge run. -/
def consolOf (docs : List Doc) : Consol :=
  consolidate (docObjectsOf docs)

/-- Reparenting (lines 230-239): every collected page entry that is a
dictionary gets its `Parent` field overwritten with a reference to the
consolidated page-tree root `pid` and is inserted into the output set. -/
def reparentAll (pid : Nat) (pagesL objs : List (Nat × Obj)) : List (Nat × Obj) :=
  pagesL.foldl (fun acc e =>
    match asDict e.2 with
    | some dd => binsert (e.1, Obj.dict (dictSet "Parent" (Obj.reference pid) dd)) acc
    | none => acc) objs

/-- Finalizing the page-tree root (lines 252-270): set `Count` to the number
of collected pages and `Kids` to the collected page references, in map
order. -/
def finalizePagesObj (pobj : Nat × Obj) (pagesL objs : List (Nat × Obj)) :
    List (Nat × Obj) :=
  match asDict pobj.2 with
  | some dd =>
      binsert (pobj.1, Obj.dict (dictSet "Kids"
        (Obj.array (pagesL.map (fun e => Obj.reference e.1)))
        (dictSet "Count" (Obj.integer pagesL.length) dd))) objs
  | none => objs

/-- Finalizing the root node (lines 273-281): point its `Pages` field at the
consolidated page-tree root and unconditionally remove `Outlines`. -/
def finalizeCatalogObj (cobj : Nat × Obj) (pid : Nat) (objs : List (Nat × Obj)) :
    List (Nat × Obj) :=
  match asDict cobj.2 with
  | some dd =>
      binsert (cobj.1, Obj.dict (dictRemove "Outlines"
        (dictSet "Pages" (Obj.reference pid) dd))) objs
  | none => objs

/-- The assembled composite document just before the full compaction
renumber (lines 230-286), together with the retained catalog identifier:
`none` exactly when one of the two abort checks fired.  The output document
was created by `Document::with_version("1.5")` (line 141). -/
def assembleDoc (docs : List Doc) : Option (Doc × Nat) :=
  let c := consolOf docs
  match c.pagesObj with
  | none => none
  | some pobj =>
      let objs1 := reparentAll pobj.1 (docPagesOf docs) c.objects
      match c.catalog with
      | none => none
      | some cobj =>
          let objs2 := finalizePagesObj pobj (docPagesOf docs) objs1
          let objs3 := finalizeCatalogObj cobj pobj.1 objs2
          some ({ objects := objs3,
                  maxId := objs3.length,
                  trailer := dictSet "Root" (Obj.reference cobj.1) [],
                  version := "1.5",
                  pages := [],
                  bookmarks := (loopSt docs).marks }, cobj.1)

/-- Identifier map of the full compaction renumber over an object list `L`:
an identifier present in `L` goes to one plus the number of strictly smaller
identifiers of `L` (a dense range starting at 1, preserving order); absent
identifiers are left unchanged. -/
def remapId (L : List (Nat × Obj)) (k : Nat) : Nat :=
  if k ∈ L.map Prod.fst then 1 + L.countP (fun e => e.1 < k) else k

/-- Modelled from the spec: lopdf `Document::renumber_objects` (code not in
src/), per §4.5 step 7: reassign every identifier of the graph to a dense
range starting at 1, preserving the established order, rewriting all
references (objects, trailer, bookmark targets) consistently. -/
def compactRenumber (d : Doc) : Doc :=
  let f := remapId d.objects
  { d with
    objects := d.objects.map (fun e => (f e.1, mapRefs f e.2))
    maxId := d.objects.length
    trailer := mapRefsD f d.trailer
    pages := d.pages.map f
    bookmarks := d.bookmarks.map (fun b => { b with target := f b.target }) }

/-- Modelled from the spec: lopdf `Document::adjust_zero_pages` (code not in
src/), per §4.5 step 8: a bookmark whose target identifier does not resolve
is redirected to the next sibling's target, else to the parent's target
(absent for the top-level forest of this program), else dropped. -/
def adjustMarks (valid : Nat → Bool) : List Bookmark → List Bookmark
  | [] => []
  | b :: t =>
      let t' := adjustMarks valid t
      if valid b.target then b :: t'
      else
        match t' with
        | b2 :: _ => { b with target := b2.target } :: t'
        | [] => t'

/-- Bookmark-target adjustment on a document. -/
def adjustZeroPages (d : Doc) : Doc :=
  { d with bookmarks := adjustMarks (fun k => (d.objects.map Prod.fst).contains k) d.bookmarks }

/-- Outline objects materialized from a bookmark forest rooted at identifier
`root`: the `Outlines` root object followed by one item per bookmark, linked
via parent/first/last/next/previous reference fields. -/
def outlineEntries (root : Nat) (bs : List Bookmark) : List (Nat × Obj) :=
  (root, Obj.dict
    [("Type", Obj.name "Outlines"),
     ("Count", Obj.integer bs.length),
     ("First", Obj.reference (root + 1)),
     ("Last", Obj.reference (root + bs.length))]) ::
  bs.enum.map (fun ib =>
    (root + 1 + ib.1, Obj.dict (
      [("Title", Obj.string ib.2.title),
       ("Parent", Obj.reference root),
       ("Dest", Obj.reference ib.2.target)] ++
      (if 0 < ib.1 then [("Prev", Obj.reference (root + ib.1))] else []) ++
      (if ib.1 + 1 < bs.length then [("Next", Obj.reference (root + 2 + ib.1))] else []))))

/-- Modelled from the spec: lopdf `Document::build_outline` (code not in
src/), per §4.5 step 8: materialize the bookmark forest into Outline-item
objects under a fresh `Outlines` root object; returns the root's identifier
when the forest is non-empty and `none` otherwise. -/
def buildOutline (d : Doc) : Doc × Option Nat :=
  match d.bookmarks with
  | [] => (d, none)
  | bs =>
      ({ d with objects := bextend d.objects (outlineEntries (d.maxId + 1) bs),
                maxId := d.maxId + 1 + bs.length }, some (d.maxId + 1))

/-- Setting the `Outlines` field on a dictionary object (no-op on
non-dictionaries, mirroring the `if let Ok(Object::Dictionary(..))` pattern
of `main.rs` line 296). -/
def outlUpd (n : Nat) : Obj → Obj
  | Obj.dict dd => Obj.dict (dictSet "Outlines" (Obj.reference n) dd)
  | o => o

/-- The post-outline catalog update (lines 295-299): look up the object at
the retained catalog identifier — unchanged from before the compaction
renumber — and, when it is a dictionary, set its `Outlines` field to the new
outline root. -/
def setOutlinesAt (id n : Nat) (d : Doc) : Doc :=
  { d with objects := d.objects.map (fun e =>
      if e.1 = id then (e.1, outlUpd n e.2) else e) }

/-- Modelled from the spec: the external compressor boundary (§6),
`compress(Graph) -> Graph`, a reference-preserving transform outside the
core; embedded as the identity on graphs. -/
def compressG (d : Doc) : Doc := d

/-- The pipeline tail after a successful assembly (lines 288-301): full
compaction renumber, bookmark adjustment, outline materialization, the
catalog `Outlines` update keyed by the pre-compaction catalog identifier
`cid`, and compression. -/
def postAssemble (d1 : Doc) (cid : Nat) : Doc :=
  let d2 := compactRenumber d1
  let d3 := adjustZeroPages d2
  match buildOutline d3 with
  | (d4, some n) => compressG (setOutlinesAt cid n d4)
  | (d4, none) => compressG d4

/-- The document written to the output file, if any: `none` exactly when an
abort check fired. -/
def mergeOutput (docs : List Doc) : Option Doc :=
  (assembleDoc docs).map (fun dc => postAssemble dc.1 dc.2)

/-- Execution-step markers for the assembly stage of `merge_pdfs`, in source
order: the consolidation fold (lines 177-220), the missing-`Pages` abort
check (222-227), the reparent loop (230-239), the missing-`Catalog` abort
check (241-246), the two finalization passes (252-281), the trailer update
(283), the working-maximum recomputation (286), the compaction renumber
(289), the bookmark adjustment (292), outline building and the catalog
`Outlines` update (295-299), compression (301) and the save (305-307). -/
inductive MStep where
  | consolidateStep : MStep
  | checkPages : MStep
  | reparentPages : MStep
  | checkCatalog : MStep
  | finalizePages : MStep
  | finalizeCatalog : MStep
  | setTrailerRoot : MStep
  | recomputeMax : MStep
  | compactStep : MStep
  | adjustBookmarks : MStep
  | buildOutlines : MStep
  | setCatalogOutlines : MStep
  | compressStep : MStep
  | saveStep : MStep
deriving DecidableEq

/-- The sequence of assembly steps `merge_pdfs` executes on a given input,
including the early returns of the two abort checks. -/
def mergeTrace (docs : List Doc) : List MStep :=
  [MStep.consolidateStep, MStep.checkPages] ++
  (if (consolOf docs).pagesObj.isNone then []
   else [MStep.reparentPages, MStep.checkCatalog] ++
     (if (consolOf docs).catalog.isNone then []
      else [MStep.finalizePages, MStep.finalizeCatalog, MStep.setTrailerRoot,
            MStep.recomputeMax, MStep.compactStep, MStep.adjustBookmarks,
            MStep.buildOutlines, MStep.setCatalogOutlines, MStep.compressStep,
            MStep.saveStep]))

/-- What `merge_pdfs` prints after the loading stage: the abort diagnostics
(lines 224, 243) or the success-path progress messages (lines 303, 309). -/
def mergePrinted (docs : List Doc) : List String :=
  if (consolOf docs).pagesObj.isNone then ["Pages root not found."]
  else if (consolOf docs).catalog.isNone then ["Catalog root not found."]
  else ["Writing output file...", "🦀 All done! 🦀"]

/-- The observable outcome of `merge_pdfs`. -/
structure MergeRes where
  printed : List String
  trace : List MStep
  output : Option Doc

/-- The merge operation on loaded input graphs (`merge_pdfs`, lines 91-311):
an empty input list is rejected up front with an error (lines 112-114);
otherwise the run returns `Except.ok` — including on both abort paths, which
print their diagnostic and produce no output document. -/
def mergePdfs (docs : List Doc) : Except String MergeRes :=
  if docs.isEmpty then Except.error "No pdfs found"
  else Except.ok ⟨mergePrinted docs, mergeTrace docs, mergeOutput docs⟩

/-! ### Derived descriptions of the pipeline, used to state properties -/

/-- The keys of an association list. -/
def keysOf (L : List (Nat × Obj)) : List Nat := L.map Prod.fst

/-- The input documents after their per-document renumbering, when the loop
starts at base `b`: each document is renumbered at the running base and the
base advances past its new declared maximum. -/
def shiftedDocsFrom (b : Nat) : List Doc → List Doc
  | [] => []
  | d :: t =>
      let d' := renumberWith b d
      d' :: shiftedDocsFrom (d'.maxId + 1) t

/-- The renumbered input documents of a merge run (loop base 1). -/
def shiftedDocs (docs : List Doc) : List Doc := shiftedDocsFrom 1 docs

/-- The base identifiers passed to the per-document renumbering, starting
from base `b`. -/
def renumBasesFrom (b : Nat) : List Doc → List Nat
  | [] => []
  | d :: t => b :: renumBasesFrom ((renumberWith b d).maxId + 1) t

/-- The base identifiers passed to the per-document renumbering of a merge
run: `1` for the first document, then one past the previous document's
renumbered maximum. -/
def renumBases (docs : List Doc) : List Nat := renumBasesFrom 1 docs

/-- The assembled (pre-compaction) composite object set of a run, or `[]`
when the run aborted. -/
def assembledObjsOf (docs : List Doc) : List (Nat × Obj) :=
  match assembleDoc docs with
  | some dc => dc.1.objects
  | none => []

/-- The `Catalog`-typed entries of an object list, in list order. -/
def catalogEntries (L : List (Nat × Obj)) : List (Nat × Obj) :=
  L.filter (fun e => typeNameOf e.2 = "Catalog")

/-- The dictionary-typed `Pages` entries of an object list, in list order,
as identifier/dictionary pairs. -/
def pagesDictEntries (L : List (Nat × Obj)) : List (Nat × Dict) :=
  L.filterMap (fun e =>
    if typeNameOf e.2 = "Pages" then (asDict e.2).map (fun dd => (e.1, dd)) else none)

/-- The value of key `k` in the earliest dictionary of `ds` that carries it
(the first-wins field union of §4.3). -/
def firstVal (k : String) (ds : List Dict) : Option Obj :=
  (ds.filterMap (fun d => dictGet k d)).head?

/-- Left-biased choice on optional objects. -/
def orD (a b : Option Obj) : Option Obj :=
  match a with
  | some v => some v
  | none => b

/-- Strictly ascending keys: the invariant of the `BTreeMap` model. -/
def SortedKeys (L : List (Nat × Obj)) : Prop :=
  L.Pairwise (fun a b => a.1 < b.1)

/-- Well-formedness of an input graph: object identifiers lie in
`[1, maxId]`, the page sequence is duplicate-free, and every page identifier
lies in `[1, maxId]` and resolves to a dictionary object. -/
def WFDoc (d : Doc) : Prop :=
  (∀ e ∈ d.objects, 1 ≤ e.1 ∧ e.1 ≤ d.maxId) ∧
  (∀ p ∈ d.pages, (1 ≤ p ∧ p ≤ d.maxId) ∧ (asDict (getObjD d p)).isSome = true) ∧
  d.pages.Nodup

instance (d : Doc) : Decidable (WFDoc d) := by
  unfold WFDoc; infer_instance

/-! ### Observers on the final document -/

/-- The root reference of the trailer. -/
def trailerRootId (d : Doc) : Option Nat :=
  match dictGet "Root" d.trailer with
  | some (Obj.reference k) => some k
  | _ => none

/-- The dictionary stored at identifier `k`, if any. -/
def objDictAt (d : Doc) (k : Nat) : Option Dict :=
  (aget k d.objects).bind asDict

/-- The root node of a document: the dictionary the trailer's root reference
resolves to, with its identifier. -/
def catalogOf (d : Doc) : Option (Nat × Dict) :=
  match trailerRootId d with
  | some r => (objDictAt d r).map (fun cd => (r, cd))
  | none => none

/-- The page-tree root of a document: the dictionary the root node's `Pages`
reference resolves to, with its identifier. -/
def pagesRootOf (d : Doc) : Option (Nat × Dict) :=
  match catalogOf d with
  | some (_, cd) =>
      match dictGet "Pages" cd with
      | some (Obj.reference p) => (objDictAt d p).map (fun pd => (p, pd))
      | _ => none
  | none => none

/-- The identifiers of a reference list, failing on a non-reference. -/
def refIds : List Obj → Option (List Nat)
  | [] => some []
  | Obj.reference i :: t => (refIds t).map (fun l => i :: l)
  | _ => none

/-- The identifiers listed by the page-tree root's `Kids` array. -/
def kidsIdsOf (d : Doc) : Option (List Nat) :=
  match pagesRootOf d with
  | some (_, pd) =>
      match dictGet "Kids" pd with
      | some (Obj.array xs) => refIds xs
      | _ => none
  | none => none

/-- The `Count` field of the page-tree root. -/
def countValOf (d : Doc) : Option Int :=
  match pagesRootOf d with
  | some (_, pd) =>
      match dictGet "Count" pd with
      | some (Obj.integer n) => some n
      | _ => none
  | none => none

/-- Whether the root node carries a navigation-root (`Outlines`) reference. -/
def catalogHasOutlines (d : Doc) : Bool :=
  match catalogOf d with
  | some (_, cd) => (dictGet "Outlines" cd).isSome
  | none => false

/-- Whether some object of the graph is an `Outlines`-typed dictionary (the
materialized outline root). -/
def hasOutlinesRoot (d : Doc) : Bool :=
  d.objects.any (fun e => typeNameOf e.2 = "Outlines")

/-! ### Concrete example graphs -/

/-- A root-node dictionary referencing the page-tree root `pid`. -/
def catalogD (pid : Nat) : Obj :=
  Obj.dict [("Type", Obj.name "Catalog"), ("Pages", Obj.reference pid)]

/-- A page-tree root dictionary listing `kids`. -/
def pagesD (kids : List Nat) : Obj :=
  Obj.dict [("Type", Obj.name "Pages"),
            ("Kids", Obj.array (kids.map Obj.reference)),
            ("Count", Obj.integer kids.length)]

/-- A page-node dictionary with parent `par`. -/
def pageD (par : Nat) : Obj :=
  Obj.dict [("Type", Obj.name "Page"), ("Parent", Obj.reference par)]

/-- A minimal well-formed one-page document. -/
def Dgood : Doc :=
  { objects := [(1, catalogD 2), (2, pagesD [3]), (3, pageD 2)],
    maxId := 3,
    trailer := [("Root", Obj.reference 1)],
    version := "1.3",
    pages := [3],
    bookmarks := [] }

/-- A well-formed two-page document whose page-tree walk order `[2, 1]`
disagrees with ascending identifier order. -/
def Dswap : Doc :=
  { objects := [(1, pageD 3), (2, pageD 3), (3, pagesD [2, 1]), (4, catalogD 3)],
    maxId := 4,
    trailer := [("Root", Obj.reference 4)],
    version := "1.4",
    pages := [2, 1],
    bookmarks := [] }

/-- A well-formed one-page document carrying an `Outlines` object at an
identifier smaller than its root node's, so that the full compaction
renumber moves the root node to a different identifier. -/
def Dout : Doc :=
  { objects := [(1, Obj.dict [("Type", Obj.name "Outlines")]),
                (2, Obj.dict [("Type", Obj.name "Catalog"),
                              ("Pages", Obj.reference 3),
                              ("Outlines", Obj.reference 1)]),
                (3, pagesD [4]), (4, pageD 3)],
    maxId := 4,
    trailer := [("Root", Obj.reference 2)],
    version := "1.4",
    pages := [4],
    bookmarks := [] }

/-- A document with no page-tree root and no pages. -/
def Dnopages : Doc :=
  { objects := [(1, Obj.dict [("Type", Obj.name "Catalog")])],
    maxId := 1,
    trailer := [("Root", Obj.reference 1)],
    version := "1.4",
    pages := [],
    bookmarks := [] }

/-- A document with a page-tree root but no root node. -/
def Dnocat : Doc :=
  { objects := [(1, pagesD [])],
    maxId := 1,
    trailer := [],
    version := "1.4",
    pages := [],
    bookmarks := [] }

/-! ### Dictionary lemmas -/

theorem dictGet_dictSet_self (k : String) (v : Obj) (d : Dict) :
    dictGet k (dictSet k v d) = some v := by
  induction d with
  | nil => simp [dictSet, dictGet]
  | cons e t ih =>
      obtain ⟨k₀, v₀⟩ := e
      by_cases h : k₀ = k
      · simp [dictSet, dictGet, h]
      · simp [dictSet, dictGet, h, ih]

theorem dictGet_dictSet_ne (h : k' ≠ k) (v : Obj) (d : Dict) :
    dictGet k (dictSet k' v d) = dictGet k d := by
  induction d with
  | nil => simp [dictSet, dictGet, h]
  | cons e t ih =>
      obtain ⟨k₀, v₀⟩ := e
      by_cases h0 : k₀ = k'
      · subst h0
        simp [dictSet, dictGet, h]
      · simp [dictSet, dictGet, h0, ih]

theorem dictGet_dictRemove_ne (h : k ≠ k') (d : Dict) :
    dictGet k (dictRemove k' d) = dictGet k d := by
  induction d with
  | nil => simp [dictRemove, dictGet]
  | cons e t ih =>
      obtain ⟨k₀, v₀⟩ := e
      by_cases h0 : k₀ = k'
      · subst h0
        simp [dictRemove, dictGet, Ne.symm h, ih]
      · simp [dictRemove, dictGet, h0, ih]

theorem dictGet_eq_none_of_not_mem (h : k ∉ dictKeys d) : dictGet k d = none := by
  induction d with
  | nil => rfl
  | cons e t ih =>
      obtain ⟨k₀, v₀⟩ := e
      simp only [dictKeys, List.map_cons, List.mem_cons] at h
      push_neg at h
      have h1 : k₀ ≠ k := Ne.symm h.1
      simp only [dictGet, if_neg h1]
      exact ih (by simpa [dictKeys] using h.2)

theorem dictKeys_dictSet_of_mem (h : k ∈ dictKeys d) (v : Obj) :
    dictKeys (dictSet k v d) = dictKeys d := by
  induction d with
  | nil => simp [dictKeys] at h
  | cons e t ih =>
      obtain ⟨k₀, v₀⟩ := e
      by_cases h0 : k₀ = k
      · simp [dictSet, dictKeys, h0]
      · have hm : k ∈ dictKeys t := by
          simp only [dictKeys, List.map_cons, List.mem_cons] at h
          rcases h with h | h
          · exact absurd h.symm h0
          · simpa [dictKeys] using h
        simp only [dictSet, if_neg h0, dictKeys, List.map_cons]
        rw [show List.map Prod.fst (dictSet k v t) = dictKeys (dictSet k v t) from rfl,
          ih hm]
        rfl

theorem dictKeys_dictSet_of_not_mem (h : k ∉ dictKeys d) (v : Obj) :
    dictKeys (dictSet k v d) = dictKeys d ++ [k] := by
  induction d with
  | nil => simp [dictSet, dictKeys]
  | cons e t ih =>
      obtain ⟨k₀, v₀⟩ := e
      simp only [dictKeys, List.map_cons, List.mem_cons] at h
      push_neg at h
      have h0 : k₀ ≠ k := Ne.symm h.1
      simp only [dictSet, if_neg h0, dictKeys, List.map_cons]
      rw [show List.map Prod.fst (dictSet k v t) = dictKeys (dictSet k v t) from rfl,
        ih (by simpa [dictKeys] using h.2)]
      rfl

theorem nodup_dictKeys_dictSet (h : (dictKeys d).Nodup) (k : String) (v : Obj) :
    (dictKeys (dictSet k v d)).Nodup := by
  by_cases hm : k ∈ dictKeys d
  · rw [dictKeys_dictSet_of_mem hm]
    exact h
  · rw [dictKeys_dictSet_of_not_mem hm]
    simp [List.nodup_append, h, hm]

theorem nodup_dictKeys_dictExtend (h : (dictKeys self).Nodup) (other : Dict) :
    (dictKeys (dictExtend self other)).Nodup := by
  induction other generalizing self with
  | nil => exact h
  | cons e t ih => exact ih (nodup_dictKeys_dictSet h e.1 e.2)

theorem dictGet_dictExtend (k : String) (self : Dict)
    (hM : (dictKeys M).Nodup) :
    dictGet k (dictExtend self M) = orD (dictGet k M) (dictGet k self) := by
  induction M generalizing self with
  | nil => simp [dictExtend, orD, dictGet]
  | cons e t ih =>
      obtain ⟨k₀, v₀⟩ := e
      simp only [dictKeys, List.map_cons, List.nodup_cons] at hM
      have hnd : (dictKeys t).Nodup := by simpa [dictKeys] using hM.2
      have hstep : dictExtend self ((k₀, v₀) :: t) = dictExtend (dictSet k₀ v₀ self) t := rfl
      by_cases h0 : k₀ = k
      · subst h0
        have hk : k₀ ∉ dictKeys t := by simpa [dictKeys] using hM.1
        rw [hstep, ih _ hnd, dictGet_eq_none_of_not_mem hk]
        simp [orD, dictGet, dictGet_dictSet_self]
      · rw [hstep, ih _ hnd, dictGet_dictSet_ne h0]
        simp [dictGet, h0]

theorem firstVal_nil (k : String) : firstVal k [] = none := rfl

theorem firstVal_cons (k : String) (d : Dict) (ds : List Dict) :
    firstVal k (d :: ds) = orD (dictGet k d) (firstVal k ds) := by
  cases h : dictGet k d <;> simp [firstVal, orD, h]

theorem orD_assoc (a b c : Option Obj) : orD (orD a b) c = orD a (orD b c) := by
  cases a <;> simp [orD]

/-! ### Reference-rewrite lemmas -/

theorem mapRefsD_eq_map (f : Nat → Nat) (d : List (String × Obj)) :
    mapRefsD f d = d.map (fun kv => (kv.1, mapRefs f kv.2)) := by
  induction d with
  | nil => rfl
  | cons e t ih =>
      obtain ⟨k₀, v₀⟩ := e
      rw [show mapRefsD f ((k₀, v₀) :: t) = (k₀, mapRefs f v₀) :: mapRefsD f t from rfl, ih]
      rfl

theorem mapRefsL_eq_map (f : Nat → Nat) (xs : List Obj) :
    mapRefsL f xs = xs.map (mapRefs f) := by
  induction xs with
  | nil => rfl
  | cons x t ih =>
      rw [show mapRefsL f (x :: t) = mapRefs f x :: mapRefsL f t from rfl, ih]
      rfl

theorem dictGet_mapRefsD (f : Nat → Nat) (k : String) (d : Dict) :
    dictGet k (mapRefsD f d) = (dictGet k d).map (mapRefs f) := by
  induction d with
  | nil => rfl
  | cons e t ih =>
      obtain ⟨k₀, v₀⟩ := e
      by_cases h : k₀ = k
      · simp [mapRefsD, dictGet, h]
      · simp [mapRefsD, dictGet, h, ih]

theorem typeNameOf_mapRefs (f : Nat → Nat) (o : Obj) :
    typeNameOf (mapRefs f o) = typeNameOf o := by
  cases o with
  | dict d =>
      simp only [mapRefs, typeNameOf, dictGet_mapRefsD]
      cases h : dictGet "Type" d with
      | none => rfl
      | some v => cases v <;> rfl
  | stream d p =>
      simp only [mapRefs, typeNameOf, dictGet_mapRefsD]
      cases h : dictGet "Type" d with
      | none => rfl
      | some v => cases v <;> rfl
  | null => rfl
  | boolean b => rfl
  | integer n => rfl
  | name s => rfl
  | string s => rfl
  | reference i => rfl
  | array xs => rfl

theorem asDict_mapRefs (f : Nat → Nat) (o : Obj) :
    asDict (mapRefs f o) = (asDict o).map (mapRefsD f) := by
  cases o <;> rfl

/-! ### Sorted association-list lemmas -/

theorem mem_binsert_sub (h : x ∈ binsert e L) : x = e ∨ x ∈ L := by
  induction L with
  | nil => simpa [binsert] using h
  | cons y t ih =>
      by_cases h1 : e.1 < y.1
      · simp only [binsert, if_pos h1, List.mem_cons] at h
        rcases h with h | h | h <;> simp [h]
      · by_cases h2 : e.1 = y.1
        · simp only [binsert, if_neg h1, if_pos h2, List.mem_cons] at h
          rcases h with h | h <;> simp [h]
        · simp only [binsert, if_neg h1, if_neg h2, List.mem_cons] at h
          rcases h with h | h
          · simp [h]
          · rcases ih h with h | h <;> simp [h]

theorem keysOf_binsert_sub (h : k ∈ keysOf (binsert e L)) : k = e.1 ∨ k ∈ keysOf L := by
  simp only [keysOf, List.mem_map] at h
  obtain ⟨x, hx, hk⟩ := h
  rcases mem_binsert_sub hx with h | h
  · exact Or.inl (by rw [← hk, h])
  · exact Or.inr (by simp only [keysOf, List.mem_map]; exact ⟨x, h, hk⟩)

theorem self_mem_keysOf_binsert (e : Nat × Obj) (L : List (Nat × Obj)) :
    e.1 ∈ keysOf (binsert e L) := by
  induction L with
  | nil => simp [binsert, keysOf]
  | cons y t ih =>
      by_cases h1 : e.1 < y.1
      · simp [binsert, h1, keysOf]
      · by_cases h2 : e.1 = y.1
        · simp [binsert, h1, h2, keysOf]
        · simp only [binsert, if_neg h1, if_neg h2, keysOf, List.map_cons, List.mem_cons]
          exact Or.inr (by simpa [keysOf] using ih)

theorem mem_keysOf_binsert_of_mem (h : k ∈ keysOf L) (e : Nat × Obj) :
    k ∈ keysOf (binsert e L) := by
  induction L with
  | nil => simp [keysOf] at h
  | cons y t ih =>
      simp only [keysOf, List.map_cons, List.mem_cons] at h
      by_cases h1 : e.1 < y.1
      · simp only [binsert, if_pos h1, keysOf, List.map_cons, List.mem_cons]
        rcases h with h | h
        · exact Or.inr (Or.inl h)
        · exact Or.inr (Or.inr (by simpa [keysOf] using h))
      · by_cases h2 : e.1 = y.1
        · simp only [binsert, if_neg h1, if_pos h2, keysOf, List.map_cons, List.mem_cons]
          rcases h with h | h
          · exact Or.inl (by omega)
          · exact Or.inr (by simpa [keysOf] using h)
        · simp only [binsert, if_neg h1, if_neg h2, keysOf, List.map_cons, List.mem_cons]
          rcases h with h | h
          · exact Or.inl h
          · exact Or.inr (by simpa [keysOf] using ih (by simpa [keysOf] using h))

theorem sortedKeys_binsert (hs : SortedKeys L) (e : Nat × Obj) :
    SortedKeys (binsert e L) := by
  induction L with
  | nil => simp [binsert, SortedKeys]
  | cons y t ih =>
      rw [SortedKeys, List.pairwise_cons] at hs
      obtain ⟨hy, ht⟩ := hs
      by_cases h1 : e.1 < y.1
      · rw [SortedKeys]
        simp only [binsert, if_pos h1]
        refine List.pairwise_cons.mpr ⟨?_, List.pairwise_cons.mpr ⟨hy, ht⟩⟩
        intro z hz
        rcases List.mem_cons.mp hz with hz | hz
        · rw [hz]; exact h1
        · exact lt_trans h1 (hy z hz)
      · by_cases h2 : e.1 = y.1
        · rw [SortedKeys]
          simp only [binsert, if_neg h1, if_pos h2]
          exact List.pairwise_cons.mpr ⟨fun z hz => h2 ▸ hy z hz, ht⟩
        · rw [SortedKeys]
          simp only [binsert, if_neg h1, if_neg h2]
          refine List.pairwise_cons.mpr ⟨?_, ih ht⟩
          intro z hz
          rcases mem_binsert_sub hz with hz | hz
          · rw [hz]; omega
          · exact hy z hz

theorem binsert_eq_append (h : ∀ x ∈ L, x.1 < e.1) : binsert e L = L ++ [e] := by
  induction L with
  | nil => rfl
  | cons y t ih =>
      have hy := h y (by simp)
      have h1 : ¬ e.1 < y.1 := by omega
      have h2 : ¬ e.1 = y.1 := by omega
      simp only [binsert, if_neg h1, if_neg h2, List.cons_append]
      rw [ih (fun x hx => h x (by simp [hx]))]

theorem bextend_append (m a b : List (Nat × Obj)) :
    bextend m (a ++ b) = bextend (bextend m a) b := by
  simp [bextend, List.foldl_append]

theorem bextend_eq_append (h : SortedKeys (m ++ es)) : bextend m es = m ++ es := by
  induction es generalizing m with
  | nil => simp [bextend]
  | cons e t ih =>
      have hlt : ∀ x ∈ m, x.1 < e.1 := by
        rw [SortedKeys, List.pairwise_append] at h
        exact fun x hx => h.2.2 x hx e (by simp)
      have hstep : bextend m (e :: t) = bextend (binsert e m) t := rfl
      rw [hstep, binsert_eq_append hlt]
      have h' : SortedKeys ((m ++ [e]) ++ t) := by
        rw [List.append_assoc, List.singleton_append]
        exact h
      rw [ih h', List.append_assoc, List.singleton_append]

theorem sortedKeys_bextend (hs : SortedKeys m) (es : List (Nat × Obj)) :
    SortedKeys (bextend m es) := by
  induction es generalizing m with
  | nil => exact hs
  | cons e t ih => exact ih (sortedKeys_binsert hs e)

theorem mem_bextend_sub (h : x ∈ bextend m es) : x ∈ m ∨ x ∈ es := by
  induction es generalizing m with
  | nil => exact Or.inl h
  | cons e t ih =>
      rcases ih h with h | h
      · rcases mem_binsert_sub h with h | h
        · exact Or.inr (by simp [h])
        · exact Or.inl h
      · exact Or.inr (by simp [h])

theorem aget_binsert_self (e : Nat × Obj) (L : List (Nat × Obj)) :
    aget e.1 (binsert e L) = some e.2 := by
  induction L with
  | nil => simp [binsert, aget]
  | cons y t ih =>
      by_cases h1 : e.1 < y.1
      · simp [binsert, h1, aget]
      · by_cases h2 : e.1 = y.1
        · simp [binsert, h1, h2, aget]
        · have hy : y.1 ≠ e.1 := by omega
          simp [binsert, h1, h2, aget, hy, ih]

theorem aget_binsert_self_kv (k : Nat) (v : Obj) (L : List (Nat × Obj)) :
    aget k (binsert (k, v) L) = some v :=
  aget_binsert_self (k, v) L

theorem aget_binsert_ne (h : k ≠ e.1) (L : List (Nat × Obj)) :
    aget k (binsert e L) = aget k L := by
  have he : e.1 ≠ k := Ne.symm h
  induction L with
  | nil => simp [binsert, aget, he]
  | cons y t ih =>
      by_cases h1 : e.1 < y.1
      · simp [binsert, h1, aget, he]
      · by_cases h2 : e.1 = y.1
        · have hy : ¬ y.1 = k := by omega
          simp only [binsert, if_neg h1, if_pos h2]
          simp [aget, he, hy]
        · simp only [binsert, if_neg h1, if_neg h2]
          by_cases h3 : y.1 = k
          · simp [aget, h3]
          · simp [aget, h3, ih]

theorem aget_bextend_not_mem (h : k ∉ keysOf es) (m : List (Nat × Obj)) :
    aget k (bextend m es) = aget k m := by
  induction es generalizing m with
  | nil => rfl
  | cons e t ih =>
      simp only [keysOf, List.map_cons, List.mem_cons] at h
      push_neg at h
      have hstep : bextend m (e :: t) = bextend (binsert e m) t := rfl
      rw [hstep, ih (by simpa [keysOf] using h.2), aget_binsert_ne h.1]

theorem binsert_perm (h : e.1 ∉ keysOf L) : (binsert e L).Perm (e :: L) := by
  induction L with
  | nil => simp [binsert]
  | cons y t ih =>
      simp only [keysOf, List.map_cons, List.mem_cons] at h
      push_neg at h
      by_cases h1 : e.1 < y.1
      · simp [binsert, h1]
      · simp only [binsert, if_neg h1, if_neg h.1]
        exact (List.Perm.cons y (ih (by simpa [keysOf] using h.2))).trans
          (List.Perm.swap e y t)

theorem bextend_perm {l : List (Nat × Obj)} (hnd : (keysOf l).Nodup)
    (hdisj : ∀ k ∈ keysOf l, k ∉ keysOf m) :
    (bextend m l).Perm (m ++ l) := by
  induction l generalizing m with
  | nil => simp [bextend]
  | cons e t ih =>
      have hkc : keysOf (e :: t) = e.1 :: keysOf t := rfl
      rw [hkc] at hnd
      have hnotm : e.1 ∉ keysOf t := (List.nodup_cons.mp hnd).1
      have hnd' : (keysOf t).Nodup := (List.nodup_cons.mp hnd).2
      have he : e.1 ∉ keysOf m := hdisj e.1 (by rw [hkc]; simp)
      have hd' : ∀ k ∈ keysOf t, k ∉ keysOf (binsert e m) := by
        intro k hk hmem
        rcases keysOf_binsert_sub hmem with hh | hh
        · exact hnotm (hh ▸ hk)
        · refine hdisj k ?_ hh
          rw [hkc]
          exact List.mem_cons_of_mem _ hk
      have hstep : bextend m (e :: t) = bextend (binsert e m) t := rfl
      rw [hstep]
      refine (ih hnd' hd').trans ?_
      refine (List.Perm.append_right t (binsert_perm he)).trans ?_
      rw [List.cons_append]
      exact List.perm_middle.symm

/-! ### Loop characterization -/

theorem shiftedDocsFrom_cons (b : Nat) (d : Doc) (t : List Doc) :
    shiftedDocsFrom b (d :: t) =
      renumberWith b d :: shiftedDocsFrom ((renumberWith b d).maxId + 1) t := rfl

theorem renumBasesFrom_cons (b : Nat) (d : Doc) (t : List Doc) :
    renumBasesFrom b (d :: t) = b :: renumBasesFrom ((renumberWith b d).maxId + 1) t := rfl

theorem stepDoc_docObjects (s : LoopSt) (d0 : Doc) :
    (stepDoc s d0).docObjects = bextend s.docObjects (renumberWith s.maxId d0).objects := by
  cases h : (renumberWith s.maxId d0).pages <;> simp [stepDoc, h]

theorem stepDoc_maxId (s : LoopSt) (d0 : Doc) :
    (stepDoc s d0).maxId = (renumberWith s.maxId d0).maxId + 1 := by
  cases h : (renumberWith s.maxId d0).pages <;> simp [stepDoc, h]

theorem stepDoc_docPages (s : LoopSt) (d0 : Doc) :
    (stepDoc s d0).docPages =
      bextend s.docPages (bextend [] (perDocEntries (renumberWith s.maxId d0))) := by
  cases h : (renumberWith s.maxId d0).pages <;> simp [stepDoc, h]

theorem stepDoc_marks_nil (h : (renumberWith s.maxId d0).pages = []) :
    (stepDoc s d0).marks = s.marks := by
  simp [stepDoc, h]

theorem stepDoc_marks_cons (h : (renumberWith s.maxId d0).pages = p :: ps) :
    (stepDoc s d0).marks = s.marks ++
      [{ title := "Page_" ++ toString s.pagenum, color := (0, 0, 1),
         level := 0, target := p, parent := none }] := by
  simp [stepDoc, h]

theorem stepDoc_pagenum_nil (h : (renumberWith s.maxId d0).pages = []) :
    (stepDoc s d0).pagenum = s.pagenum := by
  simp [stepDoc, h]

theorem stepDoc_pagenum_cons (h : (renumberWith s.maxId d0).pages = p :: ps) :
    (stepDoc s d0).pagenum = s.pagenum + 1 := by
  simp [stepDoc, h]

theorem loop_docObjects_go (docs : List Doc) :
    ∀ s : LoopSt, (docs.foldl stepDoc s).docObjects =
      bextend s.docObjects (((shiftedDocsFrom s.maxId docs).map (fun d => d.objects)).flatten) := by
  induction docs with
  | nil => intro s; simp [shiftedDocsFrom, bextend]
  | cons d t ih =>
      intro s
      rw [List.foldl_cons, ih (stepDoc s d), stepDoc_docObjects, stepDoc_maxId,
        shiftedDocsFrom_cons]
      simp [bextend_append]

theorem loop_marks_go (docs : List Doc) :
    ∀ s : LoopSt, (docs.foldl stepDoc s).marks = s.marks ++
      (((shiftedDocsFrom s.maxId docs).filter (fun d => !d.pages.isEmpty)).enumFrom
        s.pagenum).map
        (fun jd => { title := "Page_" ++ toString jd.1, color := (0, 0, 1),
                     level := 0, target := jd.2.pages.headD 0, parent := none }) := by
  induction docs with
  | nil => intro s; simp [shiftedDocsFrom]
  | cons d t ih =>
      intro s
      rw [List.foldl_cons, ih (stepDoc s d), stepDoc_maxId, shiftedDocsFrom_cons]
      cases h : (renumberWith s.maxId d).pages with
      | nil =>
          rw [stepDoc_marks_nil h, stepDoc_pagenum_nil h]
          simp [List.filter_cons, h]
      | cons p ps =>
          rw [stepDoc_marks_cons h, stepDoc_pagenum_cons h]
          simp [List.filter_cons, h, List.enumFrom_cons]

theorem keysOf_perDocEntries (d : Doc) : keysOf (perDocEntries d) = d.pages := by
  simp [perDocEntries, keysOf, List.map_map, Function.comp_def]

theorem keysOf_bextend_sub (h : k ∈ keysOf (bextend m es)) :
    k ∈ keysOf m ∨ k ∈ keysOf es := by
  simp only [keysOf, List.mem_map] at h
  obtain ⟨x, hx, hk⟩ := h
  rcases mem_bextend_sub hx with h | h
  · exact Or.inl (by simp only [keysOf, List.mem_map]; exact ⟨x, h, hk⟩)
  · exact Or.inr (by simp only [keysOf, List.mem_map]; exact ⟨x, h, hk⟩)

theorem loop_docPages_go (docs : List Doc) :
    ∀ s : LoopSt, SortedKeys s.docPages → 1 ≤ s.maxId →
    (∀ k ∈ keysOf s.docPages, k < s.maxId) →
    (∀ d ∈ docs, ∀ p ∈ d.pages, 1 ≤ p ∧ p ≤ d.maxId) →
    (docs.foldl stepDoc s).docPages = s.docPages ++
      ((shiftedDocsFrom s.maxId docs).map (fun d => bextend [] (perDocEntries d))).flatten := by
  induction docs with
  | nil => intro s _ _ _ _; simp [shiftedDocsFrom]
  | cons d t ih =>
      intro s hs hb hkey hwf
      have hd := hwf d (by simp)
      have hpages : (renumberWith s.maxId d).pages = d.pages.map (· + (s.maxId - 1)) := rfl
      have hpb : ∀ q ∈ (renumberWith s.maxId d).pages,
          s.maxId ≤ q ∧ q ≤ (renumberWith s.maxId d).maxId := by
        intro q hq
        rw [hpages] at hq
        obtain ⟨p, hp, rfl⟩ := List.mem_map.mp hq
        have := hd p hp
        have hmax : (renumberWith s.maxId d).maxId = d.maxId + (s.maxId - 1) := rfl
        omega
      have hblockkeys : ∀ k ∈ keysOf (bextend [] (perDocEntries (renumberWith s.maxId d))),
          s.maxId ≤ k ∧ k ≤ (renumberWith s.maxId d).maxId := by
        intro k hk
        rcases keysOf_bextend_sub hk with h | h
        · simp [keysOf] at h
        · rw [keysOf_perDocEntries] at h
          exact hpb k h
      have happend : SortedKeys (s.docPages ++ bextend [] (perDocEntries (renumberWith s.maxId d))) := by
        rw [SortedKeys, List.pairwise_append]
        refine ⟨hs, sortedKeys_bextend (by simp [SortedKeys]) _, ?_⟩
        intro a ha b hb2
        have h1 := hkey a.1 (by simp only [keysOf, List.mem_map]; exact ⟨a, ha, rfl⟩)
        have h2 := (hblockkeys b.1 (by simp only [keysOf, List.mem_map]; exact ⟨b, hb2, rfl⟩)).1
        omega
      rw [List.foldl_cons, ih (stepDoc s d), stepDoc_docPages, bextend_eq_append happend,
        stepDoc_maxId, shiftedDocsFrom_cons]
      · simp
      · rw [stepDoc_docPages, bextend_eq_append happend]
        exact happend
      · rw [stepDoc_maxId]
        omega
      · intro k hk
        rw [stepDoc_docPages, bextend_eq_append happend] at hk
        rw [stepDoc_maxId]
        simp only [keysOf, List.map_append, List.mem_append] at hk
        rcases hk with hk | hk
        · have := hkey k (by simpa [keysOf] using hk)
          have hm : (renumberWith s.maxId d).maxId = d.maxId + (s.maxId - 1) := rfl
          omega
        · have := (hblockkeys k (by simpa [keysOf] using hk)).2
          omega
      · exact fun d' hd' => hwf d' (by simp [hd'])

/-! ### Compaction-map lemmas -/

theorem countP_lt_of_mem_strict {α : Type} {p q : α → Bool} {a : α} {l : List α}
    (ha : a ∈ l) (hpa : p a = false) (hqa : q a = true)
    (himp : ∀ x ∈ l, p x = true → q x = true) :
    l.countP p < l.countP q := by
  induction l with
  | nil => simp at ha
  | cons x t ih =>
      rcases List.mem_cons.mp ha with hx | hx
      · subst hx
        have hle : t.countP p ≤ t.countP q :=
          List.countP_mono_left (fun y hy => himp y (by simp [hy]))
        simp [List.countP_cons, hpa, hqa]
        omega
      · have hstrict := ih hx (fun y hy => himp y (by simp [hy]))
        simp only [List.countP_cons]
        by_cases hpx : p x = true
        · have hqx := himp x (by simp) hpx
          simp [hpx, hqx]
          omega
        · by_cases hqx : q x = true
          · simp [hpx, hqx]
            omega
          · simp [hpx, hqx]
            omega

theorem remapId_lt_remapId (h1 : k1 ∈ keysOf L) (h2 : k2 ∈ keysOf L) (h12 : k1 < k2) :
    remapId L k1 < remapId L k2 := by
  have h1' : k1 ∈ L.map Prod.fst := h1
  have h2' : k2 ∈ L.map Prod.fst := h2
  obtain ⟨e, he, hek⟩ := List.mem_map.mp h1'
  rw [remapId, if_pos h1', remapId, if_pos h2']
  have := countP_lt_of_mem_strict (p := fun e => decide (e.1 < k1))
    (q := fun e => decide (e.1 < k2)) he
    (by simp [hek]) (by simp [hek]; omega)
    (fun x _ hx => by simp at hx ⊢; omega)
  omega

theorem remapId_inj_on (h1 : k1 ∈ keysOf L) (h2 : k2 ∈ keysOf L)
    (h : remapId L k1 = remapId L k2) : k1 = k2 := by
  rcases Nat.lt_trichotomy k1 k2 with hlt | heq | hgt
  · exact absurd h (Nat.ne_of_lt (remapId_lt_remapId h1 h2 hlt))
  · exact heq
  · exact absurd h.symm (Nat.ne_of_lt (remapId_lt_remapId h2 h1 hgt))

theorem countP_lt_length_of_mem {α : Type} {p : α → Bool} {a : α} {l : List α}
    (ha : a ∈ l) (hpa : p a = false) : l.countP p < l.length := by
  induction l with
  | nil => simp at ha
  | cons x t ih =>
      rcases List.mem_cons.mp ha with hx | hx
      · subst hx
        have := List.countP_le_length (l := t) p
        simp [List.countP_cons, hpa]
        omega
      · have := ih hx
        simp only [List.countP_cons, List.length_cons]
        by_cases hpx : p x = true
        · simp [hpx]
          omega
        · simp [hpx]
          omega

theorem remapId_le_length (h : k ∈ keysOf L) : remapId L k ≤ L.length := by
  have h' : k ∈ L.map Prod.fst := h
  obtain ⟨e, he, hek⟩ := List.mem_map.mp h'
  rw [remapId, if_pos h']
  have := countP_lt_length_of_mem (p := fun e => decide (e.1 < k)) he (by simp [hek])
  omega

theorem remapId_pos (h : k ∈ keysOf L) : 1 ≤ remapId L k := by
  have h' : k ∈ L.map Prod.fst := h
  rw [remapId, if_pos h']
  omega

theorem aget_map_keyfun {f : Nat → Nat} {g : Obj → Obj} {k : Nat} {L : List (Nat × Obj)}
    (hinj : ∀ e ∈ L, f e.1 = f k → e.1 = k) :
    aget (f k) (L.map (fun e => (f e.1, g e.2))) = (aget k L).map g := by
  induction L with
  | nil => rfl
  | cons e t ih =>
      by_cases h : e.1 = k
      · simp [aget, h]
      · have hne : f e.1 ≠ f k := fun hc => h (hinj e (by simp) hc)
        simp only [List.map_cons, aget, if_neg hne, if_neg h]
        exact ih (fun x hx => hinj x (by simp [hx]))

/-! ### Consolidation fold lemmas -/

theorem orD_none_right (a : Option Obj) : orD a none = a := by
  cases a <;> rfl

theorem asDict_dict (d : Dict) : asDict (Obj.dict d) = some d := rfl

theorem getLastD_cons (e0 x : α) (rest : List α) :
    ((e0 :: rest).getLast?).getD x = rest.getLast?.getD e0 := by
  cases rest with
  | nil => rfl
  | cons r rs =>
      rw [List.getLast?_cons_cons]
      cases h : (r :: rs).getLast? with
      | none => exact absurd (List.getLast?_eq_none_iff.mp h) (by simp)
      | some z => rfl

theorem consolStep_catalog_of_ne {e : Nat × Obj} (h : ¬ typeNameOf e.2 = "Catalog") (c : Consol) :
    (consolStep c e).catalog = c.catalog := by
  by_cases hP : typeNameOf e.2 = "Pages"
  · cases hd : asDict e.2 <;> simp [consolStep, h, hP, hd]
  · by_cases h1 : typeNameOf e.2 = "Page"
    · simp [consolStep, h, hP, h1]
    · by_cases h2 : typeNameOf e.2 = "Outlines"
      · simp [consolStep, h, hP, h1, h2]
      · by_cases h3 : typeNameOf e.2 = "Outline"
        · simp [consolStep, h, hP, h1, h2, h3]
        · simp [consolStep, h, hP, h1, h2, h3]

theorem consolStep_catalog_of_eq {e : Nat × Obj} (h : typeNameOf e.2 = "Catalog") (c : Consol) :
    (consolStep c e).catalog =
      some ((match c.catalog with | some p => p.1 | none => e.1), e.2) := by
  cases hc : c.catalog with
  | none => simp [consolStep, h, hc]
  | some p => cases p; simp [consolStep, h, hc]

theorem consol_fold_catalog (L : List (Nat × Obj)) :
    ∀ c : Consol, (L.foldl consolStep c).catalog =
      match catalogEntries L with
      | [] => c.catalog
      | e0 :: rest =>
          some ((match c.catalog with | some p => p.1 | none => e0.1),
                (rest.getLast?.getD e0).2) := by
  induction L with
  | nil => intro c; simp [catalogEntries]
  | cons e T ih =>
      intro c
      by_cases h : typeNameOf e.2 = "Catalog"
      · have hce : catalogEntries (e :: T) = e :: catalogEntries T := by
          simp [catalogEntries, List.filter_cons, h]
        rw [List.foldl_cons, ih (consolStep c e), hce]
        cases hT : catalogEntries T with
        | nil =>
            rw [consolStep_catalog_of_eq h]
            cases hc : c.catalog with
            | none => rfl
            | some p => rfl
        | cons e0 rest =>
            rw [consolStep_catalog_of_eq h]
            have hgl : (((e0 :: rest).getLast?).getD e).2 = ((rest.getLast?.getD e0)).2 := by
              rw [getLastD_cons]
            cases hc : c.catalog with
            | none => simp [hgl]
            | some p => simp [hgl]
      · have hce : catalogEntries (e :: T) = catalogEntries T := by
          simp [catalogEntries, List.filter_cons, h]
        rw [List.foldl_cons, ih (consolStep c e), hce, consolStep_catalog_of_ne h]

theorem consolStep_pagesObj_of_nePages {e : Nat × Obj} (h : ¬ typeNameOf e.2 = "Pages") (c : Consol) :
    (consolStep c e).pagesObj = c.pagesObj := by
  by_cases hC : typeNameOf e.2 = "Catalog"
  · simp [consolStep, hC]
  · by_cases h1 : typeNameOf e.2 = "Page"
    · simp [consolStep, hC, h, h1]
    · by_cases h2 : typeNameOf e.2 = "Outlines"
      · simp [consolStep, hC, h, h1, h2]
      · by_cases h3 : typeNameOf e.2 = "Outline"
        · simp [consolStep, hC, h, h1, h2, h3]
        · simp [consolStep, hC, h, h1, h2, h3]

theorem typeNameOf_ne_catalog_of_pages {e : Nat × Obj} (h : typeNameOf e.2 = "Pages") :
    ¬ typeNameOf e.2 = "Catalog" := by
  rw [h]
  intro hc
  exact absurd hc (by decide)

theorem consolStep_pagesObj_of_noDict {e : Nat × Obj} (hP : typeNameOf e.2 = "Pages")
    (hd : asDict e.2 = none) (c : Consol) :
    (consolStep c e).pagesObj = c.pagesObj := by
  simp [consolStep, typeNameOf_ne_catalog_of_pages hP, hP, hd]

theorem consolStep_pagesObj_dict_none {e : Nat × Obj} {dd : Dict} {c : Consol} (hP : typeNameOf e.2 = "Pages")
    (hd : asDict e.2 = some dd) (hc : c.pagesObj = none) :
    (consolStep c e).pagesObj = some (e.1, Obj.dict dd) := by
  simp [consolStep, typeNameOf_ne_catalog_of_pages hP, hP, hd, hc]

theorem consolStep_pagesObj_dict_some {e : Nat × Obj} {dd M : Dict} {c : Consol} {i : Nat} (hP : typeNameOf e.2 = "Pages")
    (hd : asDict e.2 = some dd) (hc : c.pagesObj = some (i, Obj.dict M)) :
    (consolStep c e).pagesObj = some (i, Obj.dict (dictExtend dd M)) := by
  simp [consolStep, typeNameOf_ne_catalog_of_pages hP, hP, hd, hc, asDict_dict]

theorem pdE_cons_pos {e : Nat × Obj} {dd : Dict} (hP : typeNameOf e.2 = "Pages") (hd : asDict e.2 = some dd)
    (T : List (Nat × Obj)) :
    pagesDictEntries (e :: T) = (e.1, dd) :: pagesDictEntries T := by
  simp [pagesDictEntries, hP, hd]

theorem pdE_cons_neg_type {e : Nat × Obj} (hP : ¬ typeNameOf e.2 = "Pages") (T : List (Nat × Obj)) :
    pagesDictEntries (e :: T) = pagesDictEntries T := by
  simp [pagesDictEntries, hP]

theorem pdE_cons_neg_dict {e : Nat × Obj} (hP : typeNameOf e.2 = "Pages") (hd : asDict e.2 = none)
    (T : List (Nat × Obj)) :
    pagesDictEntries (e :: T) = pagesDictEntries T := by
  simp [pagesDictEntries, hP, hd]

theorem consol_fold_pages_some (L : List (Nat × Obj)) :
    ∀ (c : Consol) (i : Nat) (M : Dict), c.pagesObj = some (i, Obj.dict M) →
    (dictKeys M).Nodup →
    (∀ pd ∈ pagesDictEntries L, (dictKeys pd.2).Nodup) →
    ∃ M', (L.foldl consolStep c).pagesObj = some (i, Obj.dict M') ∧
      (dictKeys M').Nodup ∧
      ∀ k, dictGet k M' = orD (dictGet k M)
        (firstVal k ((pagesDictEntries L).map Prod.snd)) := by
  induction L with
  | nil =>
      intro c i M hc hnd _
      exact ⟨M, by simp [hc], hnd, fun k => by simp [pagesDictEntries, firstVal_nil, orD_none_right]⟩
  | cons e T ih =>
      intro c i M hc hnd hall
      by_cases hP : typeNameOf e.2 = "Pages"
      · cases hd : asDict e.2 with
        | none =>
            rw [List.foldl_cons]
            obtain ⟨M', h1, h2, h3⟩ :=
              ih (consolStep c e) i M
                (by rw [consolStep_pagesObj_of_noDict hP hd, hc])
                hnd
                (fun pd hpd => hall pd (by rw [pdE_cons_neg_dict hP hd]; exact hpd))
            exact ⟨M', h1, h2, fun k => by
              rw [h3 k, pdE_cons_neg_dict hP hd]⟩
        | some dd =>
            rw [List.foldl_cons]
            have hddnd : (dictKeys dd).Nodup :=
              hall (e.1, dd) (by rw [pdE_cons_pos hP hd]; simp)
            obtain ⟨M', h1, h2, h3⟩ :=
              ih (consolStep c e) i (dictExtend dd M)
                (by rw [consolStep_pagesObj_dict_some hP hd hc])
                (nodup_dictKeys_dictExtend hddnd M)
                (fun pd hpd => hall pd (by rw [pdE_cons_pos hP hd]; simp [hpd]))
            refine ⟨M', h1, h2, fun k => ?_⟩
            rw [h3 k, pdE_cons_pos hP hd, dictGet_dictExtend k dd hnd]
            simp only [List.map_cons]
            rw [firstVal_cons, orD_assoc]
      · rw [List.foldl_cons]
        obtain ⟨M', h1, h2, h3⟩ :=
          ih (consolStep c e) i M
            (by rw [consolStep_pagesObj_of_nePages hP, hc])
            hnd
            (fun pd hpd => hall pd (by rw [pdE_cons_neg_type hP]; exact hpd))
        exact ⟨M', h1, h2, fun k => by rw [h3 k, pdE_cons_neg_type hP]⟩

theorem consol_fold_pages_none_nil (L : List (Nat × Obj)) :
    ∀ c : Consol, pagesDictEntries L = [] → c.pagesObj = none →
    (L.foldl consolStep c).pagesObj = none := by
  induction L with
  | nil => intro c _ hc; simpa using hc
  | cons e T ih =>
      intro c hL hc
      by_cases hP : typeNameOf e.2 = "Pages"
      · cases hd : asDict e.2 with
        | none =>
            rw [List.foldl_cons]
            exact ih (consolStep c e) (by rw [pdE_cons_neg_dict hP hd T] at hL; exact hL)
              (by rw [consolStep_pagesObj_of_noDict hP hd, hc])
        | some dd =>
            rw [pdE_cons_pos hP hd T] at hL
            exact absurd hL (by simp)
      · rw [List.foldl_cons]
        exact ih (consolStep c e) (by rw [pdE_cons_neg_type hP T] at hL; exact hL)
          (by rw [consolStep_pagesObj_of_nePages hP, hc])

theorem consol_fold_pages_none_cons (L : List (Nat × Obj)) :
    ∀ (c : Consol) (pd0 : Nat × Dict) (rest : List (Nat × Dict)),
    pagesDictEntries L = pd0 :: rest → c.pagesObj = none →
    (∀ pd ∈ pagesDictEntries L, (dictKeys pd.2).Nodup) →
    ∃ M', (L.foldl consolStep c).pagesObj = some (pd0.1, Obj.dict M') ∧
      (dictKeys M').Nodup ∧
      ∀ k, dictGet k M' = firstVal k ((pagesDictEntries L).map Prod.snd) := by
  induction L with
  | nil => intro c pd0 rest hL; simp [pagesDictEntries] at hL
  | cons e T ih =>
      intro c pd0 rest hL hc hall
      by_cases hP : typeNameOf e.2 = "Pages"
      · cases hd : asDict e.2 with
        | none =>
            rw [pdE_cons_neg_dict hP hd T] at hL
            rw [List.foldl_cons]
            obtain ⟨M', h1, h2, h3⟩ :=
              ih (consolStep c e) pd0 rest hL
                (by rw [consolStep_pagesObj_of_noDict hP hd, hc])
                (fun pd hpd => hall pd (by rw [pdE_cons_neg_dict hP hd]; exact hpd))
            exact ⟨M', h1, h2, fun k => by rw [h3 k, pdE_cons_neg_dict hP hd]⟩
        | some dd =>
            have hL' := hL
            rw [pdE_cons_pos hP hd T] at hL'
            have h12 := List.cons_eq_cons.mp hL'
            have hddnd : (dictKeys dd).Nodup :=
              hall (e.1, dd) (by rw [pdE_cons_pos hP hd]; simp)
            rw [List.foldl_cons]
            obtain ⟨M', h1, h2, h3⟩ :=
              consol_fold_pages_some T (consolStep c e) e.1 dd
                (by rw [consolStep_pagesObj_dict_none hP hd hc])
                hddnd
                (fun pd hpd => hall pd (by rw [pdE_cons_pos hP hd]; simp [hpd]))
            refine ⟨M', by rw [h1, ← h12.1], h2, fun k => ?_⟩
            rw [h3 k, pdE_cons_pos hP hd]
            simp only [List.map_cons]
            rw [firstVal_cons]
      · rw [pdE_cons_neg_type hP T] at hL
        rw [List.foldl_cons]
        obtain ⟨M', h1, h2, h3⟩ :=
          ih (consolStep c e) pd0 rest hL
            (by rw [consolStep_pagesObj_of_nePages hP, hc])
            (fun pd hpd => hall pd (by rw [pdE_cons_neg_type hP]; exact hpd))
        exact ⟨M', h1, h2, fun k => by rw [h3 k, pdE_cons_neg_type hP]⟩

theorem loop_docObjects_sorted (docs : List Doc) :
    ∀ s : LoopSt, SortedKeys s.docObjects →
    SortedKeys ((docs.foldl stepDoc s).docObjects) := by
  induction docs with
  | nil => intro s hs; exact hs
  | cons d t ih =>
      intro s hs
      rw [List.foldl_cons]
      refine ih (stepDoc s d) ?_
      rw [stepDoc_docObjects]
      exact sortedKeys_bextend hs _

theorem sortedKeys_docObjectsOf (docs : List Doc) : SortedKeys (docObjectsOf docs) := by
  exact loop_docObjects_sorted docs _ (by simp [SortedKeys])

theorem mem_docObjectsOf_sub (h : e ∈ docObjectsOf docs) :
    ∃ d' ∈ shiftedDocs docs, e ∈ d'.objects := by
  have : docObjectsOf docs =
      bextend [] (((shiftedDocsFrom 1 docs).map (fun d => d.objects)).flatten) := by
    rw [docObjectsOf, loopSt, loop_docObjects_go]
  rw [this] at h
  rcases mem_bextend_sub h with h | h
  · simp at h
  · obtain ⟨os, hos, he⟩ := List.mem_flatten.mp h
    obtain ⟨d', hd', rfl⟩ := List.mem_map.mp hos
    exact ⟨d', hd', he⟩

theorem mem_shiftedDocsFrom_sub (hd : d' ∈ shiftedDocsFrom b docs) :
    ∃ b0, ∃ d ∈ docs, d' = renumberWith b0 d := by
  induction docs generalizing b with
  | nil => simp [shiftedDocsFrom] at hd
  | cons d t ih =>
      rw [shiftedDocsFrom_cons] at hd
      rcases List.mem_cons.mp hd with h | h
      · exact ⟨b, d, by simp, h⟩
      · obtain ⟨b0, d0, hd0, he⟩ := ih h
        exact ⟨b0, d0, by simp [hd0], he⟩

theorem mem_renumberWith_objects (he : e ∈ (renumberWith b d).objects) :
    ∃ e0 ∈ d.objects, e = (e0.1 + (b - 1), mapRefs (· + (b - 1)) e0.2) := by
  have : (renumberWith b d).objects =
      d.objects.map (fun e => (e.1 + (b - 1), mapRefs (· + (b - 1)) e.2)) := rfl
  rw [this] at he
  obtain ⟨e0, he0, hee⟩ := List.mem_map.mp he
  exact ⟨e0, he0, hee.symm⟩

/-! ### Renumbering-base lemmas -/

theorem shiftedDocsFrom_length (b : Nat) (docs : List Doc) :
    (shiftedDocsFrom b docs).length = docs.length := by
  induction docs generalizing b with
  | nil => rfl
  | cons d t ih => rw [shiftedDocsFrom_cons]; simp [ih]

theorem renumBasesFrom_length (b : Nat) (docs : List Doc) :
    (renumBasesFrom b docs).length = docs.length := by
  induction docs generalizing b with
  | nil => rfl
  | cons d t ih => rw [renumBasesFrom_cons]; simp [ih]

theorem shiftedDocsFrom_eq_zipWith (b : Nat) (docs : List Doc) :
    shiftedDocsFrom b docs = List.zipWith renumberWith (renumBasesFrom b docs) docs := by
  induction docs generalizing b with
  | nil => rfl
  | cons d t ih => rw [shiftedDocsFrom_cons, renumBasesFrom_cons, List.zipWith_cons_cons, ih]

theorem renumBasesFrom_getD_zero (b : Nat) (d : Doc) (t : List Doc) :
    (renumBasesFrom b (d :: t)).getD 0 0 = b := by
  rw [renumBasesFrom_cons]
  rfl

theorem renumBasesFrom_getD_succ (b : Nat) (docs : List Doc) :
    ∀ i, i + 1 < docs.length →
    (renumBasesFrom b docs).getD (i + 1) 0 =
      ((shiftedDocsFrom b docs).getD i default).maxId + 1 := by
  induction docs generalizing b with
  | nil => intro i hi; simp at hi
  | cons d t ih =>
      intro i hi
      rw [renumBasesFrom_cons, shiftedDocsFrom_cons]
      cases i with
      | zero =>
          simp only [List.getD_cons_succ, List.getD_cons_zero]
          cases t with
          | nil => simp at hi
          | cons d2 t2 => rw [renumBasesFrom_cons]; rfl
      | succ i' =>
          simp only [List.getD_cons_succ]
          exact ih _ i' (by simpa using hi)

theorem renumberWith_maxId (b : Nat) (d : Doc) :
    (renumberWith b d).maxId = d.maxId + (b - 1) := rfl

theorem renumberWith_pages (b : Nat) (d : Doc) :
    (renumberWith b d).pages = d.pages.map (· + (b - 1)) := rfl

theorem keysOf_renumberWith (b : Nat) (d : Doc) :
    keysOf (renumberWith b d).objects = (keysOf d.objects).map (· + (b - 1)) := by
  show List.map Prod.fst (d.objects.map _) = _
  simp [keysOf, List.map_map, Function.comp_def]

theorem shiftedDocsFrom_keys_lb (docs : List Doc) :
    ∀ b, 1 ≤ b →
    (∀ d ∈ docs, ∀ e ∈ d.objects, 1 ≤ e.1 ∧ e.1 ≤ d.maxId) →
    ∀ d' ∈ shiftedDocsFrom b docs, ∀ k ∈ keysOf d'.objects, b ≤ k := by
  induction docs with
  | nil => intro b _ _ d' hd'; simp [shiftedDocsFrom] at hd'
  | cons d t ih =>
      intro b hb hwf d' hd' k hk
      rw [shiftedDocsFrom_cons] at hd'
      rcases List.mem_cons.mp hd' with h | h
      · subst h
        rw [keysOf_renumberWith] at hk
        obtain ⟨k0, hk0, rfl⟩ := List.mem_map.mp hk
        simp only [keysOf, List.mem_map] at hk0
        obtain ⟨e, he, hek⟩ := hk0
        have h1 := (hwf d (by simp) e he).1
        omega
      · have hb' : 1 ≤ (renumberWith b d).maxId + 1 := by omega
        have := ih ((renumberWith b d).maxId + 1) hb'
          (fun d0 hd0 => hwf d0 (by simp [hd0])) d' h k hk
        have hm : (renumberWith b d).maxId = d.maxId + (b - 1) := rfl
        omega

theorem shiftedDocsFrom_head_keys_ub
    (hwf : ∀ e ∈ d.objects, 1 ≤ e.1 ∧ e.1 ≤ d.maxId)
    (hk : k ∈ keysOf (renumberWith b d).objects) :
    k ≤ (renumberWith b d).maxId := by
  rw [keysOf_renumberWith] at hk
  obtain ⟨k0, hk0, rfl⟩ := List.mem_map.mp hk
  simp only [keysOf, List.mem_map] at hk0
  obtain ⟨e, he, hek⟩ := hk0
  have h2 := (hwf e he).2
  rw [renumberWith_maxId]
  omega

theorem shiftedDocsFrom_disjoint (docs : List Doc) :
    ∀ b, 1 ≤ b →
    (∀ d ∈ docs, ∀ e ∈ d.objects, 1 ≤ e.1 ∧ e.1 ≤ d.maxId) →
    ∀ i j, i < j → j < docs.length →
    ∀ k1 ∈ keysOf ((shiftedDocsFrom b docs).getD i default).objects,
    ∀ k2 ∈ keysOf ((shiftedDocsFrom b docs).getD j default).objects, k1 < k2 := by
  induction docs with
  | nil => intro b _ _ i j _ hj; simp at hj
  | cons d t ih =>
      intro b hb hwf i j hij hj k1 hk1 k2 hk2
      rw [shiftedDocsFrom_cons] at hk1 hk2
      cases i with
      | zero =>
          cases j with
          | zero => omega
          | succ j' =>
              simp only [List.getD_cons_zero] at hk1
              simp only [List.getD_cons_succ] at hk2
              have hub : k1 ≤ (renumberWith b d).maxId :=
                shiftedDocsFrom_head_keys_ub (hwf d (by simp)) hk1
              have hj' : j' < t.length := by simpa using hj
              have hmem : ((shiftedDocsFrom ((renumberWith b d).maxId + 1) t).getD j' default)
                  ∈ shiftedDocsFrom ((renumberWith b d).maxId + 1) t := by
                have hlen : j' < (shiftedDocsFrom ((renumberWith b d).maxId + 1) t).length := by
                  rw [shiftedDocsFrom_length]
                  exact hj'
                rw [List.getD_eq_getElem _ _ hlen]
                exact List.getElem_mem hlen
              have hlb := shiftedDocsFrom_keys_lb t ((renumberWith b d).maxId + 1)
                (by omega) (fun d0 hd0 => hwf d0 (by simp [hd0])) _ hmem k2 hk2
              omega
      | succ i' =>
          cases j with
          | zero => omega
          | succ j' =>
              simp only [List.getD_cons_succ] at hk1 hk2
              exact ih ((renumberWith b d).maxId + 1) (by omega)
                (fun d0 hd0 => hwf d0 (by simp [hd0])) i' j' (by omega)
                (by simpa using hj) k1 hk1 k2 hk2

/-! ### Abort-path lemmas -/

theorem catalogEntries_eq_nil
    (h : ∀ e ∈ L, ¬ typeNameOf e.2 = "Catalog") : catalogEntries L = [] := by
  rw [catalogEntries, List.filter_eq_nil_iff]
  intro e he
  simp [h e he]

theorem pagesDictEntries_eq_nil
    (h : ∀ e ∈ L, ¬(typeNameOf e.2 = "Pages" ∧ (asDict e.2).isSome = true)) :
    pagesDictEntries L = [] := by
  rw [pagesDictEntries, List.filterMap_eq_nil_iff]
  intro e he
  by_cases hP : typeNameOf e.2 = "Pages"
  · have := h e he
    rw [if_pos hP]
    cases hd : asDict e.2 with
    | none => rfl
    | some dd => exact absurd ⟨hP, by rw [hd]; rfl⟩ this
  · rw [if_neg hP]

theorem consolOf_catalog_none
    (h : ∀ e ∈ docObjectsOf docs, ¬ typeNameOf e.2 = "Catalog") :
    (consolOf docs).catalog = none := by
  rw [consolOf, consolidate, consol_fold_catalog, catalogEntries_eq_nil h]

theorem consolOf_pagesObj_none
    (h : ∀ e ∈ docObjectsOf docs, ¬(typeNameOf e.2 = "Pages" ∧ (asDict e.2).isSome = true)) :
    (consolOf docs).pagesObj = none := by
  rw [consolOf, consolidate]
  exact consol_fold_pages_none_nil _ _ (pagesDictEntries_eq_nil h) rfl

/-! ### Assembly-stage lemmas -/

theorem consolStep_objects_sorted {e : Nat × Obj} {c : Consol}
    (hs : SortedKeys c.objects) : SortedKeys (consolStep c e).objects := by
  by_cases hC : typeNameOf e.2 = "Catalog"
  · simpa [consolStep, hC] using hs
  · by_cases hP : typeNameOf e.2 = "Pages"
    · cases hd : asDict e.2 with
      | none => simpa [consolStep, hC, hP, hd] using hs
      | some dd =>
          cases hc : c.pagesObj with
          | none => simpa [consolStep, hC, hP, hd, hc] using hs
          | some pp => simpa [consolStep, hC, hP, hd, hc] using hs
    · by_cases h1 : typeNameOf e.2 = "Page"
      · simpa [consolStep, hC, hP, h1] using hs
      · by_cases h2 : typeNameOf e.2 = "Outlines"
        · simpa [consolStep, hC, hP, h1, h2] using hs
        · by_cases h3 : typeNameOf e.2 = "Outline"
          · simpa [consolStep, hC, hP, h1, h2, h3] using hs
          · simpa [consolStep, hC, hP, h1, h2, h3] using sortedKeys_binsert hs e

theorem consolidate_objects_sorted (L : List (Nat × Obj)) :
    SortedKeys (consolidate L).objects := by
  rw [consolidate]
  have hgo : ∀ c : Consol, SortedKeys c.objects → SortedKeys ((L.foldl consolStep c).objects) := by
    induction L with
    | nil => exact fun c hc => hc
    | cons e T ih => exact fun c hc => ih _ (consolStep_objects_sorted hc)
  exact hgo _ (by simp [SortedKeys])

theorem reparentAll_objects_sorted (P : List (Nat × Obj)) :
    ∀ objs, SortedKeys objs → SortedKeys (reparentAll pid P objs) := by
  induction P with
  | nil => exact fun objs h => h
  | cons e t ih =>
      intro objs h
      show SortedKeys (List.foldl _ _ t)
      cases hd : asDict e.2 with
      | none => simpa [reparentAll, hd] using ih _ h
      | some dd =>
          simpa [reparentAll, hd] using ih _ (sortedKeys_binsert h _)

theorem aget_some_mem_keys (h : aget k L = some v) : k ∈ keysOf L := by
  induction L with
  | nil => simp [aget] at h
  | cons e t ih =>
      by_cases he : e.1 = k
      · simp [keysOf, he]
      · rw [aget, if_neg he] at h
        simp only [keysOf, List.map_cons, List.mem_cons]
        exact Or.inr (ih h)

theorem mem_keysOf_reparentAll_of_mem (P : List (Nat × Obj)) :
    ∀ objs, k ∈ keysOf objs → k ∈ keysOf (reparentAll pid P objs) := by
  induction P with
  | nil => exact fun objs h => h
  | cons e t ih =>
      intro objs h
      cases hd : asDict e.2 with
      | none => simpa [reparentAll, hd] using ih _ h
      | some dd =>
          simpa [reparentAll, hd] using ih _ (mem_keysOf_binsert_of_mem h _)

theorem mem_keysOf_reparentAll_entry (P : List (Nat × Obj)) :
    ∀ objs, ∀ e ∈ P, ∀ dd, asDict e.2 = some dd →
    e.1 ∈ keysOf (reparentAll pid P objs) := by
  induction P with
  | nil => intro objs e he; simp at he
  | cons x t ih =>
      intro objs e he dd hdd
      rcases List.mem_cons.mp he with h | h
      · subst h
        cases hx : asDict e.2 with
        | none => rw [hx] at hdd; exact absurd hdd (by simp)
        | some ddx =>
            have : reparentAll pid (e :: t) objs =
                reparentAll pid t
                  (binsert (e.1, Obj.dict (dictSet "Parent" (Obj.reference pid) ddx)) objs) := by
              simp [reparentAll, hx]
            rw [this]
            exact mem_keysOf_reparentAll_of_mem t _
              (self_mem_keysOf_binsert (e.1, _) objs)
      · cases hx : asDict x.2 with
        | none =>
            have : reparentAll pid (x :: t) objs = reparentAll pid t objs := by
              simp [reparentAll, hx]
            rw [this]
            exact ih objs e h dd hdd
        | some ddx =>
            have : reparentAll pid (x :: t) objs =
                reparentAll pid t
                  (binsert (x.1, Obj.dict (dictSet "Parent" (Obj.reference pid) ddx)) objs) := by
              simp [reparentAll, hx]
            rw [this]
            exact ih _ e h dd hdd

theorem compactRenumber_objects (d : Doc) :
    (compactRenumber d).objects =
      d.objects.map (fun e => (remapId d.objects e.1, mapRefs (remapId d.objects) e.2)) := rfl

theorem compactRenumber_trailer (d : Doc) :
    (compactRenumber d).trailer = mapRefsD (remapId d.objects) d.trailer := rfl

theorem compactRenumber_maxId (d : Doc) : (compactRenumber d).maxId = d.objects.length := rfl

theorem keysOf_mapped (f : Nat → Nat) (g : Obj → Obj) (L : List (Nat × Obj)) :
    keysOf (L.map (fun e => (f e.1, g e.2))) = (keysOf L).map f := by
  simp [keysOf, List.map_map, Function.comp_def]

theorem buildOutline_fst_version (d : Doc) : (buildOutline d).1.version = d.version := by
  cases hb : d.bookmarks <;> simp [buildOutline, hb]

theorem buildOutline_fst_trailer (d : Doc) : (buildOutline d).1.trailer = d.trailer := by
  cases hb : d.bookmarks <;> simp [buildOutline, hb]

theorem keysOf_outlineEntries_lb (root : Nat) (bs : List Bookmark) :
    ∀ k ∈ keysOf (outlineEntries root bs), root ≤ k := by
  intro k hk
  simp only [outlineEntries, keysOf, List.map_cons, List.mem_cons, List.map_map] at hk
  rcases hk with h | h
  · omega
  · obtain ⟨ib, _, hk⟩ := List.mem_map.mp h
    simp only [Function.comp_apply] at hk
    omega

theorem buildOutline_aget (d : Doc) (hkeys0 : ∀ k' ∈ keysOf d.objects, k' ≤ d.maxId)
    (k : Nat) (hkle : k ≤ d.maxId) :
    aget k (buildOutline d).1.objects = aget k d.objects := by
  cases hb : d.bookmarks with
  | nil => simp [buildOutline, hb]
  | cons b bs =>
      simp only [buildOutline, hb]
      apply aget_bextend_not_mem
      intro hmem
      have := keysOf_outlineEntries_lb (d.maxId + 1) (b :: bs) k hmem
      omega

theorem setOutlinesAt_version (id n : Nat) (d : Doc) :
    (setOutlinesAt id n d).version = d.version := rfl

theorem setOutlinesAt_trailer (id n : Nat) (d : Doc) :
    (setOutlinesAt id n d).trailer = d.trailer := rfl

theorem aget_condmap (k id : Nat) (upd : Obj → Obj) (L : List (Nat × Obj)) :
    aget k (L.map (fun e => if e.1 = id then (e.1, upd e.2) else e)) =
      (aget k L).map (fun o => if k = id then upd o else o) := by
  induction L with
  | nil => rfl
  | cons e t ih =>
      by_cases h2 : e.1 = k
      · subst h2
        by_cases h1 : e.1 = id
        · simp [aget, h1]
        · simp [aget, h1]
      · by_cases h1 : e.1 = id
        · simp only [List.map_cons, if_pos h1, aget, if_neg h2, ih]
        · simp only [List.map_cons, if_neg h1, aget, if_neg h2, ih]

theorem aget_setOutlinesAt (k id n : Nat) (d : Doc) :
    aget k (setOutlinesAt id n d).objects =
      (aget k d.objects).map (fun o => if k = id then outlUpd n o else o) := by
  show aget k (d.objects.map _) = _
  exact aget_condmap k id _ d.objects

theorem postAssemble_version (d1 : Doc) (cid : Nat) :
    (postAssemble d1 cid).version = d1.version := by
  rw [postAssemble]
  rcases hB : buildOutline (adjustZeroPages (compactRenumber d1)) with ⟨d4, r⟩
  have hv : d4.version = d1.version := by
    have := buildOutline_fst_version (adjustZeroPages (compactRenumber d1))
    rw [hB] at this
    exact this
  cases r with
  | none => simpa [compressG] using hv
  | some n => simpa [compressG, setOutlinesAt_version] using hv

theorem postAssemble_trailer (d1 : Doc) (cid : Nat) :
    (postAssemble d1 cid).trailer = (compactRenumber d1).trailer := by
  rw [postAssemble]
  rcases hB : buildOutline (adjustZeroPages (compactRenumber d1)) with ⟨d4, r⟩
  have hv : d4.trailer = (compactRenumber d1).trailer := by
    have := buildOutline_fst_trailer (adjustZeroPages (compactRenumber d1))
    rw [hB] at this
    exact this
  cases r with
  | none => simpa [compressG] using hv
  | some n => simpa [compressG, setOutlinesAt_trailer] using hv

theorem postAssemble_objDict (d1 : Doc) (cid k : Nat)
    (hk : k ∈ keysOf d1.objects)
    (dd : Dict) (hv : aget k d1.objects = some (Obj.dict dd)) :
    ∃ dd2, aget (remapId d1.objects k) (postAssemble d1 cid).objects =
        some (Obj.dict dd2) ∧
      ∀ k', k' ≠ "Outlines" →
        dictGet k' dd2 = dictGet k' (mapRefsD (remapId d1.objects) dd) := by
  have hinj : ∀ e ∈ d1.objects, remapId d1.objects e.1 = remapId d1.objects k → e.1 = k := by
    intro e he heq
    exact remapId_inj_on (by simp only [keysOf, List.mem_map]; exact ⟨e, he, rfl⟩) hk heq
  have h2 : aget (remapId d1.objects k) (compactRenumber d1).objects =
      some (Obj.dict (mapRefsD (remapId d1.objects) dd)) := by
    rw [compactRenumber_objects, aget_map_keyfun hinj, hv]
    rfl
  have hle : remapId d1.objects k ≤ d1.objects.length := remapId_le_length hk
  have hkeys3 : ∀ k' ∈ keysOf (adjustZeroPages (compactRenumber d1)).objects,
      k' ≤ (adjustZeroPages (compactRenumber d1)).maxId := by
    intro k' hk'
    have : (adjustZeroPages (compactRenumber d1)).objects = (compactRenumber d1).objects := rfl
    rw [this, compactRenumber_objects, keysOf_mapped] at hk'
    obtain ⟨k0, hk0, rfl⟩ := List.mem_map.mp hk'
    have : (adjustZeroPages (compactRenumber d1)).maxId = d1.objects.length := rfl
    rw [this]
    exact remapId_le_length hk0
  have h3 : aget (remapId d1.objects k)
      (buildOutline (adjustZeroPages (compactRenumber d1))).1.objects =
      some (Obj.dict (mapRefsD (remapId d1.objects) dd)) := by
    rw [buildOutline_aget _ hkeys3 _ (by
      have : (adjustZeroPages (compactRenumber d1)).maxId = d1.objects.length := rfl
      rw [this]
      exact hle)]
    exact h2
  rw [postAssemble]
  rcases hB : buildOutline (adjustZeroPages (compactRenumber d1)) with ⟨d4, r⟩
  rw [hB] at h3
  cases r with
  | none => exact ⟨mapRefsD (remapId d1.objects) dd, by simpa [compressG] using h3,
      fun k' _ => rfl⟩
  | some n =>
      by_cases hcid : remapId d1.objects k = cid
      · refine ⟨dictSet "Outlines" (Obj.reference n) (mapRefsD (remapId d1.objects) dd), ?_, ?_⟩
        · show aget _ (setOutlinesAt cid n d4).objects = _
          rw [aget_setOutlinesAt, h3]
          simp [hcid, outlUpd]
        · intro k' hk'
          exact dictGet_dictSet_ne (fun hh => hk' hh.symm) _ _
      · refine ⟨mapRefsD (remapId d1.objects) dd, ?_, fun k' _ => rfl⟩
        show aget _ (setOutlinesAt cid n d4).objects = _
        rw [aget_setOutlinesAt, h3]
        simp [hcid]

/-! ### Master assembly lemmas -/

theorem asDict_isSome_dict (h : (asDict o).isSome = true) : ∃ dd, o = Obj.dict dd := by
  cases o <;> simp [asDict] at h ⊢

theorem renumberWith_getObjD_dict (hwf : WFDoc d) (hp : p ∈ d.pages) (b : Nat) :
    ∃ dd, getObjD (renumberWith b d) (p + (b - 1)) = Obj.dict dd := by
  obtain ⟨-, hpg, -⟩ := hwf
  obtain ⟨dd0, hdd0⟩ := asDict_isSome_dict ((hpg p hp).2)
  have ha : aget p d.objects = some (Obj.dict dd0) := by
    rw [getObjD] at hdd0
    cases ha : aget p d.objects with
    | none => rw [ha] at hdd0; simp at hdd0
    | some o => rw [ha] at hdd0; simp at hdd0; rw [hdd0]
  refine ⟨mapRefsD (· + (b - 1)) dd0, ?_⟩
  rw [getObjD]
  have hmap : aget (p + (b - 1)) (renumberWith b d).objects =
      (aget p d.objects).map (mapRefs (· + (b - 1))) := by
    show aget (p + (b - 1))
      (d.objects.map (fun e => (e.1 + (b - 1), mapRefs (· + (b - 1)) e.2))) = _
    exact aget_map_keyfun (f := fun x => x + (b - 1)) (fun e _ heq => by simpa using heq)
  rw [hmap, ha]
  simp [mapRefs]

theorem docPagesOf_flatten (hwf : ∀ d ∈ docs, WFDoc d) :
    docPagesOf docs =
      ((shiftedDocsFrom 1 docs).map (fun d => bextend [] (perDocEntries d))).flatten := by
  rw [docPagesOf, loopSt]
  exact loop_docPages_go docs ⟨1, 1, [], [], []⟩ (by simp [SortedKeys]) (by simp)
    (by simp [keysOf]) (fun d hd p hp => (hwf d hd).2.1 p hp |>.1)

theorem docPages_entry_dict (hwf : ∀ d ∈ docs, WFDoc d) :
    ∀ e ∈ docPagesOf docs, ∃ dd, e.2 = Obj.dict dd := by
  intro e he
  rw [docPagesOf_flatten hwf] at he
  obtain ⟨blk, hblk, heblk⟩ := List.mem_flatten.mp he
  obtain ⟨d', hd', rfl⟩ := List.mem_map.mp hblk
  rcases mem_bextend_sub heblk with h | h
  · simp at h
  · obtain ⟨q, hq, rfl⟩ := List.mem_map.mp h
    obtain ⟨b0, d, hd, rfl⟩ := mem_shiftedDocsFrom_sub hd'
    rw [renumberWith_pages] at hq
    obtain ⟨p, hp, rfl⟩ := List.mem_map.mp hq
    exact renumberWith_getObjD_dict (hwf d hd) hp b0

theorem mapRefs_reference (f : Nat → Nat) (i : Nat) :
    mapRefs f (Obj.reference i) = Obj.reference (f i) := by
  simp [mapRefs]

theorem mapRefs_integer (f : Nat → Nat) (n : Int) :
    mapRefs f (Obj.integer n) = Obj.integer n := by
  simp [mapRefs]

theorem mapRefs_array_entryRefs (f : Nat → Nat) (P : List (Nat × Obj)) :
    mapRefs f (Obj.array (P.map (fun e => Obj.reference e.1))) =
      Obj.array (P.map (fun e => Obj.reference (f e.1))) := by
  simp [mapRefs, mapRefsL_eq_map, List.map_map, Function.comp_def, mapRefs_reference]

theorem merged_pagesRoot_spec (docs : List Doc) {pid cid : Nat} {PD CD : Dict} {co : Obj}
    {d1 : Doc} {cid0 : Nat}
    (hpo : (consolOf docs).pagesObj = some (pid, Obj.dict PD))
    (hco : (consolOf docs).catalog = some (cid, co))
    (hcd : asDict co = some CD)
    (hne : cid ≠ pid)
    (hpdict : ∀ e ∈ docPagesOf docs, ∃ dd, e.2 = Obj.dict dd)
    (hass : assembleDoc docs = some (d1, cid0)) :
    cid0 = cid ∧
    (∀ e ∈ docPagesOf docs, e.1 ∈ keysOf d1.objects) ∧
    pid ∈ keysOf d1.objects ∧
    ∃ PD2, pagesRootOf (postAssemble d1 cid0) = some (remapId d1.objects pid, PD2) ∧
      dictGet "Kids" PD2 = some (Obj.array ((docPagesOf docs).map
        (fun e => Obj.reference (remapId d1.objects e.1)))) ∧
      dictGet "Count" PD2 = some (Obj.integer ((docPagesOf docs).length)) := by
  simp only [assembleDoc, hpo, hco] at hass
  obtain ⟨h1, h2⟩ := Prod.mk.injEq .. ▸ (Option.some.inj hass)
  subst h2
  have hd1obj : d1.objects =
      finalizeCatalogObj (cid, co) pid
        (finalizePagesObj (pid, Obj.dict PD) (docPagesOf docs)
          (reparentAll pid (docPagesOf docs) (consolOf docs).objects)) := by
    rw [← h1]
  have hd1tr : d1.trailer = dictSet "Root" (Obj.reference cid) [] := by rw [← h1]
  have hfin3 : ∀ X, finalizeCatalogObj (cid, co) pid X =
      binsert (cid, Obj.dict (dictRemove "Outlines" (dictSet "Pages" (Obj.reference pid) CD))) X := by
    intro X
    simp [finalizeCatalogObj, hcd]
  have hfin2 : ∀ X, finalizePagesObj (pid, Obj.dict PD) (docPagesOf docs) X =
      binsert (pid, Obj.dict (dictSet "Kids"
        (Obj.array ((docPagesOf docs).map (fun e => Obj.reference e.1)))
        (dictSet "Count" (Obj.integer ((docPagesOf docs).length)) PD))) X := by
    intro X
    simp [finalizePagesObj, asDict_dict]
  have hagetp : aget pid d1.objects = some (Obj.dict (dictSet "Kids"
      (Obj.array ((docPagesOf docs).map (fun e => Obj.reference e.1)))
      (dictSet "Count" (Obj.integer ((docPagesOf docs).length)) PD))) := by
    rw [hd1obj, hfin3, aget_binsert_ne (Ne.symm hne), hfin2]
    exact aget_binsert_self_kv _ _ _
  have hagetc : aget cid d1.objects = some (Obj.dict
      (dictRemove "Outlines" (dictSet "Pages" (Obj.reference pid) CD))) := by
    rw [hd1obj, hfin3]
    exact aget_binsert_self_kv _ _ _
  have hpmem : pid ∈ keysOf d1.objects := aget_some_mem_keys hagetp
  have hcmem : cid ∈ keysOf d1.objects := aget_some_mem_keys hagetc
  have hPmem : ∀ e ∈ docPagesOf docs, e.1 ∈ keysOf d1.objects := by
    intro e he
    obtain ⟨dd, hdd⟩ := hpdict e he
    have h0 : e.1 ∈ keysOf (reparentAll pid (docPagesOf docs) (consolOf docs).objects) :=
      mem_keysOf_reparentAll_entry _ _ e he dd (by rw [hdd]; rfl)
    rw [hd1obj, hfin3, hfin2]
    exact mem_keysOf_binsert_of_mem (mem_keysOf_binsert_of_mem h0 _) _
  refine ⟨rfl, hPmem, hpmem, ?_⟩
  obtain ⟨cd2, hcd2, hcd2get⟩ := postAssemble_objDict d1 cid cid hcmem _ hagetc
  obtain ⟨pd2, hpd2, hpd2get⟩ := postAssemble_objDict d1 cid pid hpmem _ hagetp
  have htr : trailerRootId (postAssemble d1 cid) = some (remapId d1.objects cid) := by
    rw [trailerRootId, postAssemble_trailer, compactRenumber_trailer, hd1tr]
    simp [dictSet, mapRefsD, mapRefs_reference, dictGet]
  have hcat : catalogOf (postAssemble d1 cid) = some (remapId d1.objects cid, cd2) := by
    simp [catalogOf, objDictAt, htr, hcd2, asDict_dict]
  have hpagesref : dictGet "Pages" cd2 = some (Obj.reference (remapId d1.objects pid)) := by
    rw [hcd2get "Pages" (by decide), dictGet_mapRefsD,
      dictGet_dictRemove_ne (by decide : "Pages" ≠ "Outlines"), dictGet_dictSet_self]
    simp [mapRefs_reference]
  have hproot : pagesRootOf (postAssemble d1 cid) = some (remapId d1.objects pid, pd2) := by
    simp [pagesRootOf, objDictAt, hcat, hpagesref, hpd2, asDict_dict]
  refine ⟨pd2, hproot, ?_, ?_⟩
  · rw [hpd2get "Kids" (by decide), dictGet_mapRefsD, dictGet_dictSet_self]
    simp [mapRefs_array_entryRefs]
  · rw [hpd2get "Count" (by decide), dictGet_mapRefsD,
      dictGet_dictSet_ne (by decide : "Kids" ≠ "Count"), dictGet_dictSet_self]
    simp [mapRefs_integer]

/-! ### Success-path inversion lemmas -/

theorem getLast?_mem_self {α : Type} {l : List α} {a : α} (h : l.getLast? = some a) :
    a ∈ l := by
  induction l with
  | nil => simp at h
  | cons x t ih =>
      cases t with
      | nil =>
          simp at h
          simp [h]
      | cons y ts =>
          rw [List.getLast?_cons_cons] at h
          exact List.mem_cons_of_mem _ (ih h)

theorem getLastD_mem_cons {α : Type} (l : List α) (e0 : α) :
    (l.getLast?.getD e0) ∈ e0 :: l := by
  cases h : l.getLast? with
  | none => simp
  | some z => simpa using Or.inr (getLast?_mem_self h)

theorem sortedKeys_nodup (hs : SortedKeys L) : (keysOf L).Nodup := by
  show (List.map Prod.fst L).Pairwise (fun a b => a ≠ b)
  exact List.pairwise_map.mpr (hs.imp (fun h => Nat.ne_of_lt h))

theorem same_key_eq (hnd : (keysOf L).Nodup) (h1 : (k, a) ∈ L) (h2 : (k, b) ∈ L) :
    a = b := by
  induction L with
  | nil => simp at h1
  | cons e t ih =>
      have hkc : keysOf (e :: t) = e.1 :: keysOf t := rfl
      rw [hkc] at hnd
      have hnotin := (List.nodup_cons.mp hnd).1
      have hnd' := (List.nodup_cons.mp hnd).2
      rcases List.mem_cons.mp h1 with h1 | h1 <;> rcases List.mem_cons.mp h2 with h2 | h2
      · injection h1.trans h2.symm
      · exfalso
        apply hnotin
        rw [← h1]
        simp only [keysOf, List.mem_map]
        exact ⟨(k, b), h2, rfl⟩
      · exfalso
        apply hnotin
        rw [← h2]
        simp only [keysOf, List.mem_map]
        exact ⟨(k, a), h1, rfl⟩
      · exact ih hnd' h1 h2

theorem mem_catalogEntries (h : x ∈ catalogEntries L) :
    x ∈ L ∧ typeNameOf x.2 = "Catalog" := by
  refine ⟨List.mem_of_mem_filter h, ?_⟩
  have := List.of_mem_filter h
  simpa using this

theorem pagesDictEntries_src {pd : Nat × Dict} (h : pd ∈ pagesDictEntries L) :
    ∃ o, (pd.1, o) ∈ L ∧ typeNameOf o = "Pages" ∧ asDict o = some pd.2 := by
  obtain ⟨p1, p2⟩ := pd
  obtain ⟨e, he, hf⟩ := List.mem_filterMap.mp h
  by_cases hP : typeNameOf e.2 = "Pages"
  · rw [if_pos hP] at hf
    cases hd : asDict e.2 with
    | none => rw [hd] at hf; simp at hf
    | some dd =>
        rw [hd] at hf
        have hf2 : (e.1, dd) = (p1, p2) := Option.some.inj hf
        rw [Prod.mk.injEq] at hf2
        obtain ⟨h1, h2⟩ := hf2
        refine ⟨e.2, ?_, hP, by rw [hd, h2]⟩
        rw [show ((p1, p2) : Nat × Dict).1 = p1 from rfl, ← h1]
        exact he
  · rw [if_neg hP] at hf
    simp at hf

theorem consolStep_pagesObj_dict_someAny {e : Nat × Obj} {dd : Dict} {c : Consol}
    {i : Nat} {oldo : Obj}
    (hP : typeNameOf e.2 = "Pages") (hd : asDict e.2 = some dd)
    (hc : c.pagesObj = some (i, oldo)) :
    ∃ X, (consolStep c e).pagesObj = some (i, Obj.dict X) := by
  cases ho : asDict oldo with
  | none =>
      exact ⟨dd, by simp [consolStep, typeNameOf_ne_catalog_of_pages hP, hP, hd, hc, ho]⟩
  | some M =>
      exact ⟨dictExtend dd M,
        by simp [consolStep, typeNameOf_ne_catalog_of_pages hP, hP, hd, hc, ho]⟩

theorem consol_fold_pagesObj_shape (L : List (Nat × Obj)) :
    ∀ c : Consol, (c.pagesObj = none ∨ ∃ i M, c.pagesObj = some (i, Obj.dict M)) →
    ((L.foldl consolStep c).pagesObj = none ∨
      ∃ i M, (L.foldl consolStep c).pagesObj = some (i, Obj.dict M)) := by
  induction L with
  | nil => exact fun c h => h
  | cons e T ih =>
      intro c h
      rw [List.foldl_cons]
      refine ih _ ?_
      by_cases hP : typeNameOf e.2 = "Pages"
      · cases hd : asDict e.2 with
        | none => rw [consolStep_pagesObj_of_noDict hP hd]; exact h
        | some dd =>
            rcases h with h | ⟨i, M, h⟩
            · rw [consolStep_pagesObj_dict_none hP hd h]
              exact Or.inr ⟨_, _, rfl⟩
            · obtain ⟨X, hX⟩ := consolStep_pagesObj_dict_someAny hP hd h
              exact Or.inr ⟨_, _, hX⟩
      · rw [consolStep_pagesObj_of_nePages hP]
        exact h

theorem consolOf_pagesObj_shape (docs : List Doc) :
    (consolOf docs).pagesObj = none ∨
      ∃ i M, (consolOf docs).pagesObj = some (i, Obj.dict M) := by
  rw [consolOf, consolidate]
  exact consol_fold_pagesObj_shape _ _ (Or.inl rfl)

theorem consol_fold_pagesObj_src (L : List (Nat × Obj)) :
    ∀ (c : Consol) (pid : Nat) (o : Obj), (L.foldl consolStep c).pagesObj = some (pid, o) →
    (∃ o0, c.pagesObj = some (pid, o0)) ∨
      ∃ e ∈ L, e.1 = pid ∧ typeNameOf e.2 = "Pages" ∧ (asDict e.2).isSome = true := by
  induction L with
  | nil => intro c pid o h; exact Or.inl ⟨o, h⟩
  | cons e T ih =>
      intro c pid o h
      rw [List.foldl_cons] at h
      by_cases hP : typeNameOf e.2 = "Pages"
      · cases hd : asDict e.2 with
        | none =>
            rcases ih _ pid o h with ⟨o0, h0⟩ | ⟨e', he', hrest⟩
            · rw [consolStep_pagesObj_of_noDict hP hd] at h0
              exact Or.inl ⟨o0, h0⟩
            · exact Or.inr ⟨e', by simp [he'], hrest⟩
        | some dd =>
            rcases ih _ pid o h with ⟨o0, h0⟩ | ⟨e', he', hrest⟩
            · cases hc : c.pagesObj with
              | none =>
                  rw [consolStep_pagesObj_dict_none hP hd hc] at h0
                  have h12 := Option.some.inj h0
                  rw [Prod.mk.injEq] at h12
                  exact Or.inr ⟨e, by simp, h12.1, hP, by rw [hd]; rfl⟩
              | some p0 =>
                  obtain ⟨i0, oldo⟩ := p0
                  obtain ⟨X, hX⟩ := consolStep_pagesObj_dict_someAny hP hd hc
                  rw [hX] at h0
                  have h12 := Option.some.inj h0
                  rw [Prod.mk.injEq] at h12
                  exact Or.inl ⟨oldo, by rw [h12.1]⟩
            · exact Or.inr ⟨e', by simp [he'], hrest⟩
      · rcases ih _ pid o h with ⟨o0, h0⟩ | ⟨e', he', hrest⟩
        · rw [consolStep_pagesObj_of_nePages hP] at h0
          exact Or.inl ⟨o0, h0⟩
        · exact Or.inr ⟨e', by simp [he'], hrest⟩

theorem mergePdfs_ok (h : mergePdfs docs = Except.ok r) :
    r.printed = mergePrinted docs ∧ r.trace = mergeTrace docs ∧
      r.output = mergeOutput docs := by
  by_cases he : docs.isEmpty
  · simp [mergePdfs, he] at h
  · simp only [mergePdfs, if_neg he, Except.ok.injEq] at h
    rw [← h]
    exact ⟨rfl, rfl, rfl⟩

theorem merge_success_inversion {docs : List Doc} {out : Doc}
    (hcatdict : ∀ e ∈ docObjectsOf docs, typeNameOf e.2 = "Catalog" →
      (asDict e.2).isSome = true)
    (hout : mergeOutput docs = some out) :
    ∃ pid cid PD CD co d1,
      (consolOf docs).pagesObj = some (pid, Obj.dict PD) ∧
      (consolOf docs).catalog = some (cid, co) ∧
      asDict co = some CD ∧ cid ≠ pid ∧
      assembleDoc docs = some (d1, cid) ∧ out = postAssemble d1 cid := by
  rw [mergeOutput] at hout
  cases hass : assembleDoc docs with
  | none => rw [hass] at hout; simp at hout
  | some dc =>
      rw [hass] at hout
      simp at hout
      cases hpo0 : (consolOf docs).pagesObj with
      | none => simp [assembleDoc, hpo0] at hass
      | some pobj =>
          cases hco0 : (consolOf docs).catalog with
          | none => simp [assembleDoc, hpo0, hco0] at hass
          | some cobj =>
              obtain ⟨pid, PD, hpo1⟩ : ∃ pid PD,
                  (consolOf docs).pagesObj = some (pid, Obj.dict PD) := by
                rcases consolOf_pagesObj_shape docs with h | ⟨i, M, h⟩
                · rw [hpo0] at h; simp at h
                · exact ⟨i, M, h⟩
              -- characterize the retained catalog
              have hchar := consol_fold_catalog (docObjectsOf docs)
                { catalog := none, pagesObj := none, objects := [] }
              rw [show (docObjectsOf docs).foldl consolStep
                  { catalog := none, pagesObj := none, objects := [] } =
                  consolOf docs from rfl] at hchar
              cases hce : catalogEntries (docObjectsOf docs) with
              | nil =>
                  rw [hce] at hchar
                  have hnone : (consolOf docs).catalog = none := hchar
                  rw [hco0] at hnone
                  simp at hnone
              | cons e0 rest =>
                  rw [hce] at hchar
                  have hchar : (consolOf docs).catalog =
                      some (e0.1, (rest.getLast?.getD e0).2) := hchar
                  -- hchar : (consolOf docs).catalog = some (e0.1, (rest.getLast?.getD e0).2)
                  have helast := getLastD_mem_cons rest e0
                  rw [← hce] at helast
                  obtain ⟨hemem, hetype⟩ := mem_catalogEntries helast
                  obtain ⟨CD, hCD⟩ := Option.isSome_iff_exists.mp
                    (hcatdict _ hemem hetype)
                  have hne : e0.1 ≠ pid := by
                    intro heq
                    obtain ⟨e0mem, he0type⟩ := mem_catalogEntries
                      (by rw [hce]; exact List.mem_cons_self e0 rest)
                    rcases consol_fold_pagesObj_src (docObjectsOf docs) _ pid _ hpo1 with
                      ⟨o0, h0⟩ | ⟨ep, hpmem, hpk, hptype, _⟩
                    · simp at h0
                    · have hnd := sortedKeys_nodup (sortedKeys_docObjectsOf docs)
                      have h1 : (e0.1, e0.2) ∈ docObjectsOf docs := by
                        simpa using e0mem
                      have h2 : (e0.1, ep.2) ∈ docObjectsOf docs := by
                        rw [heq, ← hpk]
                        simpa using hpmem
                      have := same_key_eq hnd h1 h2
                      rw [← this] at hptype
                      rw [he0type] at hptype
                      exact absurd hptype (by decide)
                  have hass2 := hass
                  simp only [assembleDoc, hpo1, hchar] at hass2
                  have hdc2 : dc.2 = e0.1 :=
                    ((congrArg Prod.snd (Option.some.inj hass2))).symm
                  refine ⟨pid, e0.1, PD, CD, (rest.getLast?.getD e0).2, dc.1,
                    by rw [← hpo0]; exact hpo1,
                    by rw [← hco0]; exact hchar,
                    hCD, hne, ?_, by rw [← hdc2]; exact hout.symm⟩
                  rw [← hdc2]

theorem pages_nodup_shifted (hwf : WFDoc d) (b : Nat) :
    (renumberWith b d).pages.Nodup := by
  rw [renumberWith_pages]
  exact hwf.2.2.map (fun h1 h2 h => by omega)

theorem block_length (hnd : d'.pages.Nodup) :
    (bextend [] (perDocEntries d')).length = d'.pages.length := by
  have hperm := bextend_perm (m := []) (l := perDocEntries d')
    (by rw [keysOf_perDocEntries]; exact hnd) (by simp [keysOf])
  have := hperm.length_eq
  simpa [perDocEntries] using this

theorem blocks_length_sum (docs : List Doc) :
    ∀ b, (∀ d ∈ docs, WFDoc d) →
    ((shiftedDocsFrom b docs).map (fun d' => (bextend [] (perDocEntries d')).length)).sum =
      (docs.map (fun d => d.pages.length)).sum := by
  induction docs with
  | nil => intro b _; simp [shiftedDocsFrom]
  | cons d t ih =>
      intro b hwf
      rw [shiftedDocsFrom_cons]
      simp only [List.map_cons, List.sum_cons]
      rw [block_length (pages_nodup_shifted (hwf d (by simp)) b),
        renumberWith_pages, List.length_map, ih _ (fun d0 hd0 => hwf d0 (by simp [hd0]))]

theorem docPagesOf_length (hwf : ∀ d ∈ docs, WFDoc d) :
    (docPagesOf docs).length = (docs.map (fun d => d.pages.length)).sum := by
  rw [docPagesOf_flatten hwf, List.length_flatten, List.map_map]
  exact blocks_length_sum docs 1 hwf

theorem refIds_map_reference (l : List Nat) : refIds (l.map Obj.reference) = some l := by
  induction l with
  | nil => rfl
  | cons x t ih => simp [refIds, ih]

/-! ## Claim theorems -/

/-- C1: during root consolidation, for every run of merge over input graphs
containing at least one root-node (`Catalog`), the retained root-node
identifier is that of the first `Catalog` object in ascending
composite-identifier order (the composite object map is key-sorted), while
the retained content is that of the last `Catalog` object in that order. -/
theorem merge_catalog_first_id_last_content (docs : List Doc)
    (e0 : Nat × Obj) (rest : List (Nat × Obj))
    (hcat : catalogEntries (docObjectsOf docs) = e0 :: rest) :
    SortedKeys (docObjectsOf docs) ∧
    (consolOf docs).catalog = some (e0.1, (rest.getLast?.getD e0).2) := by
  refine ⟨sortedKeys_docObjectsOf docs, ?_⟩
  have hchar := consol_fold_catalog (docObjectsOf docs)
    { catalog := none, pagesObj := none, objects := [] }
  rw [show (docObjectsOf docs).foldl consolStep
      { catalog := none, pagesObj := none, objects := [] } = consolOf docs from rfl,
    hcat] at hchar
  exact hchar

/-- C1 witness: a concrete run with a single `Catalog` object. -/
theorem merge_catalog_first_id_last_content_w :
    SortedKeys (docObjectsOf [Dgood]) ∧
    (consolOf [Dgood]).catalog = some ((1 : Nat), catalogD 2) :=
  merge_catalog_first_id_last_content [Dgood] (1, catalogD 2) [] rfl

/-- C2: during root consolidation, for every run of merge over input graphs
containing at least one page-tree root (dictionary-typed `Pages` object, with
duplicate-free keys), the retained `Pages` identifier is that of the first
such object in ascending composite-identifier order, and the retained
dictionary maps every key to the value of the earliest-encountered `Pages`
dictionary carrying it (field-wise union, earlier wins). -/
theorem merge_pages_first_id_union (docs : List Doc)
    (pd0 : Nat × Dict) (rest : List (Nat × Dict))
    (hpde : pagesDictEntries (docObjectsOf docs) = pd0 :: rest)
    (hnd : ∀ pd ∈ pagesDictEntries (docObjectsOf docs), (dictKeys pd.2).Nodup) :
    SortedKeys (docObjectsOf docs) ∧
    ∃ M, (consolOf docs).pagesObj = some (pd0.1, Obj.dict M) ∧
      ∀ k, dictGet k M =
        firstVal k ((pagesDictEntries (docObjectsOf docs)).map Prod.snd) := by
  refine ⟨sortedKeys_docObjectsOf docs, ?_⟩
  obtain ⟨M, h1, -, h3⟩ := consol_fold_pages_none_cons (docObjectsOf docs)
    { catalog := none, pagesObj := none, objects := [] } pd0 rest hpde rfl hnd
  exact ⟨M, h1, h3⟩

/-- C2 witness: a concrete run with a single `Pages` object. -/
theorem merge_pages_first_id_union_w :
    (∀ pd ∈ pagesDictEntries (docObjectsOf [Dgood]), (dictKeys pd.2).Nodup) ∧
    (SortedKeys (docObjectsOf [Dgood]) ∧
      ∃ M, (consolOf [Dgood]).pagesObj = some ((2 : Nat), Obj.dict M) ∧
        ∀ k, dictGet k M =
          firstVal k ((pagesDictEntries (docObjectsOf [Dgood])).map Prod.snd)) :=
  ⟨by decide, merge_pages_first_id_union [Dgood]
    (2, [("Type", Obj.name "Pages"), ("Kids", Obj.array [Obj.reference 3]),
         ("Count", Obj.integer 1)]) [] rfl (by decide)⟩

/-- C3: for every non-empty set of input graphs in which no page-tree root
(dictionary-typed `Pages` object) is found, or in which no root-node
(`Catalog`-typed object) is found, the merge halts, prints the corresponding
diagnostic, writes no output document, and returns a success-shaped
`Except.ok` result. -/
theorem merge_abort_paths (docs : List Doc) (hne : docs ≠ [])
    (habs : (∀ e ∈ docObjectsOf docs,
        ¬(typeNameOf e.2 = "Pages" ∧ (asDict e.2).isSome = true)) ∨
      (∀ e ∈ docObjectsOf docs, ¬ typeNameOf e.2 = "Catalog")) :
    ∃ r, mergePdfs docs = Except.ok r ∧ r.output = none ∧
      ("Pages root not found." ∈ r.printed ∨
        "Catalog root not found." ∈ r.printed) := by
  have hnemp : ¬ docs.isEmpty := by simpa using hne
  refine ⟨⟨mergePrinted docs, mergeTrace docs, mergeOutput docs⟩,
    by simp [mergePdfs, hnemp], ?_, ?_⟩
  · show mergeOutput docs = none
    rcases habs with hnp | hnc
    · have h := consolOf_pagesObj_none hnp
      simp [mergeOutput, assembleDoc, h]
    · have h := consolOf_catalog_none hnc
      cases hpo : (consolOf docs).pagesObj with
      | none => simp [mergeOutput, assembleDoc, hpo]
      | some pobj => simp [mergeOutput, assembleDoc, hpo, h]
  · show _ ∈ mergePrinted docs ∨ _ ∈ mergePrinted docs
    rcases habs with hnp | hnc
    · have h := consolOf_pagesObj_none hnp
      left
      simp [mergePrinted, h]
    · have h := consolOf_catalog_none hnc
      cases hpo : (consolOf docs).pagesObj with
      | none =>
          left
          simp [mergePrinted, hpo]
      | some pobj =>
          right
          simp [mergePrinted, hpo, h]

/-- C3 witness: a single input graph with no `Pages` object. -/
theorem merge_abort_paths_w :
    ([Dnopages] ≠ ([] : List Doc)) ∧
    ∃ r, mergePdfs [Dnopages] = Except.ok r ∧ r.output = none ∧
      ("Pages root not found." ∈ r.printed ∨
        "Catalog root not found." ∈ r.printed) :=
  ⟨by simp, merge_abort_paths [Dnopages] (by simp)
    (Or.inl (by decide))⟩

/-- C4 counterexample: for the single input `Dswap`, whose internal page
order `[2, 1]` disagrees with ascending identifier order, the composite
`Kids` array lists identifiers `[1, 2]` (ascending identifier order), not
the pages in the document's internal page order mapped to their final
identifiers, which would be `[2, 1]`. -/
theorem merge_kids_order_cex :
    (mergeOutput [Dswap]).map kidsIdsOf = some (some [1, 2]) ∧
    Dswap.pages.map (fun p => remapId (assembledObjsOf [Dswap]) p) = [2, 1] ∧
    (some [1, 2] : Option (List Nat)) ≠ some [2, 1] :=
  ⟨rfl, rfl, by decide⟩

/-- C4 (amended): for every successful merge of well-formed inputs, the
final page-tree root's `Kids` array is the concatenation, over the input
documents in order, of one block per document; each block is strictly
ascending in the final identifier space and is a permutation of the final
identifiers of that document's pages.  (It equals internal page order
exactly when each document's page sequence is ascending in identifier
order.) -/
theorem merge_kids_grouped (docs : List Doc) (r : MergeRes) (out : Doc)
    (hwf : ∀ d ∈ docs, WFDoc d)
    (hcatdict : ∀ e ∈ docObjectsOf docs, typeNameOf e.2 = "Catalog" →
      (asDict e.2).isSome = true)
    (hok : mergePdfs docs = Except.ok r) (hout : r.output = some out) :
    ∃ blocks : List (List Nat),
      kidsIdsOf out = some blocks.flatten ∧
      blocks.length = docs.length ∧
      ∀ i, i < docs.length →
        (blocks.getD i []).Pairwise (· < ·) ∧
        (blocks.getD i []).Perm
          (((shiftedDocs docs).getD i default).pages.map
            (fun p => remapId (assembledObjsOf docs) p)) := by
  obtain ⟨-, -, hro⟩ := mergePdfs_ok hok
  rw [hro] at hout
  obtain ⟨pid, cid, PD, CD, co, d1, hpo, hco, hcd, hne, hass, hpost⟩ :=
    merge_success_inversion hcatdict hout
  have hpdict := docPages_entry_dict hwf
  obtain ⟨-, hPmem, hpmem, PD2, hproot, hkids, hcount⟩ :=
    merged_pagesRoot_spec docs hpo hco hcd hne hpdict hass
  have hobj : assembledObjsOf docs = d1.objects := by
    simp [assembledObjsOf, hass]
  subst hpost
  have hkidsIds : kidsIdsOf (postAssemble d1 cid) =
      some ((docPagesOf docs).map (fun e => remapId d1.objects e.1)) := by
    simp only [kidsIdsOf, hproot, hkids]
    rw [show (docPagesOf docs).map (fun e => Obj.reference (remapId d1.objects e.1)) =
        ((docPagesOf docs).map (fun e => remapId d1.objects e.1)).map Obj.reference by
      rw [List.map_map]; rfl]
    rw [refIds_map_reference]
  have hflat := docPagesOf_flatten hwf
  refine ⟨(shiftedDocs docs).map
    (fun d' => (bextend [] (perDocEntries d')).map (fun e => remapId d1.objects e.1)),
    ?_, ?_, ?_⟩
  · rw [hkidsIds, hflat, List.map_flatten, List.map_map]
    rfl
  · rw [List.length_map, shiftedDocs]
    exact shiftedDocsFrom_length 1 docs
  · intro i hi
    have hleni : i < (shiftedDocs docs).length := by
      rw [shiftedDocs, shiftedDocsFrom_length]
      exact hi
    have hgetD : ((shiftedDocs docs).map
        (fun d' => (bextend [] (perDocEntries d')).map
          (fun e => remapId d1.objects e.1))).getD i [] =
        ((bextend [] (perDocEntries ((shiftedDocs docs).getD i default))).map
          (fun e => remapId d1.objects e.1)) := by
      rw [List.getD_eq_getElem _ _ (by simpa using hleni), List.getElem_map,
        List.getD_eq_getElem _ _ hleni]
    rw [hgetD]
    have hDmem : ((shiftedDocs docs).getD i default) ∈ shiftedDocs docs := by
      rw [List.getD_eq_getElem _ _ hleni]
      exact List.getElem_mem hleni
    have hblkP : ∀ x ∈ bextend [] (perDocEntries ((shiftedDocs docs).getD i default)),
        x ∈ docPagesOf docs := by
      intro x hx
      rw [hflat]
      refine List.mem_flatten.mpr
        ⟨bextend [] (perDocEntries ((shiftedDocs docs).getD i default)), ?_, hx⟩
      exact List.mem_map.mpr ⟨_, hDmem, rfl⟩
    have hsorted : SortedKeys
        (bextend [] (perDocEntries ((shiftedDocs docs).getD i default))) :=
      sortedKeys_bextend (by simp [SortedKeys]) _
    constructor
    · rw [List.pairwise_map]
      refine hsorted.imp_of_mem ?_
      intro a b ha hb hab
      refine remapId_lt_remapId ?_ ?_ hab
      · exact hPmem a (hblkP a ha)
      · exact hPmem b (hblkP b hb)
    · obtain ⟨b0, d0, hd0, hDi⟩ := mem_shiftedDocsFrom_sub hDmem
      have hndpages : ((shiftedDocs docs).getD i default).pages.Nodup := by
        rw [hDi]
        exact pages_nodup_shifted (hwf d0 hd0) b0
      have hperm := bextend_perm (m := [])
        (l := perDocEntries ((shiftedDocs docs).getD i default))
        (by rw [keysOf_perDocEntries]; exact hndpages) (by simp [keysOf])
      have hperm2 : (bextend [] (perDocEntries ((shiftedDocs docs).getD i default))).Perm
          (perDocEntries ((shiftedDocs docs).getD i default)) := by
        simpa using hperm
      have := hperm2.map (fun e => remapId d1.objects e.1)
      refine this.trans ?_
      rw [hobj, perDocEntries, List.map_map]
      exact List.Perm.refl _

/-- C4 (amended) witness: the two-document run `[Dgood, Dgood]`. -/
theorem merge_kids_grouped_w :
    (∀ d ∈ [Dgood, Dgood], WFDoc d) ∧
    ∃ blocks : List (List Nat),
      kidsIdsOf ((mergeOutput [Dgood, Dgood]).getD default) = some blocks.flatten ∧
      blocks.length = ([Dgood, Dgood] : List Doc).length ∧
      ∀ i, i < ([Dgood, Dgood] : List Doc).length →
        (blocks.getD i []).Pairwise (· < ·) ∧
        (blocks.getD i []).Perm
          (((shiftedDocs [Dgood, Dgood]).getD i default).pages.map
            (fun p => remapId (assembledObjsOf [Dgood, Dgood]) p)) :=
  ⟨by decide, merge_kids_grouped [Dgood, Dgood]
    ⟨mergePrinted [Dgood, Dgood], mergeTrace [Dgood, Dgood], mergeOutput [Dgood, Dgood]⟩
    ((mergeOutput [Dgood, Dgood]).getD default)
    (by decide) (by decide) rfl rfl⟩

/-- C5: for every successful merge of well-formed input graphs with page
counts `p1, …, pn`, the composite page-tree root's `Count` field equals
`p1 + … + pn` and its `Kids` array has exactly that many entries. -/
theorem merge_count_conservation (docs : List Doc) (r : MergeRes) (out : Doc)
    (hwf : ∀ d ∈ docs, WFDoc d)
    (hcatdict : ∀ e ∈ docObjectsOf docs, typeNameOf e.2 = "Catalog" →
      (asDict e.2).isSome = true)
    (hok : mergePdfs docs = Except.ok r) (hout : r.output = some out) :
    ∃ P2 : Nat × Dict, pagesRootOf out = some P2 ∧
      dictGet "Count" P2.2 =
        some (Obj.integer ((((docs.map (fun d => d.pages.length)).sum : Nat)) : Int)) ∧
      ∃ kids, kidsIdsOf out = some kids ∧
        kids.length = (docs.map (fun d => d.pages.length)).sum := by
  obtain ⟨-, -, hro⟩ := mergePdfs_ok hok
  rw [hro] at hout
  obtain ⟨pid, cid, PD, CD, co, d1, hpo, hco, hcd, hne, hass, hpost⟩ :=
    merge_success_inversion hcatdict hout
  obtain ⟨-, hPmem, hpmem, PD2, hproot, hkids, hcount⟩ :=
    merged_pagesRoot_spec docs hpo hco hcd hne (docPages_entry_dict hwf) hass
  subst hpost
  have hlen := docPagesOf_length hwf
  refine ⟨(remapId d1.objects pid, PD2), hproot, ?_, ?_⟩
  · rw [hcount, hlen]
  · refine ⟨(docPagesOf docs).map (fun e => remapId d1.objects e.1), ?_, ?_⟩
    · simp only [kidsIdsOf, hproot, hkids]
      rw [show (docPagesOf docs).map (fun e => Obj.reference (remapId d1.objects e.1)) =
          ((docPagesOf docs).map (fun e => remapId d1.objects e.1)).map Obj.reference by
        rw [List.map_map]; rfl]
      rw [refIds_map_reference]
    · rw [List.length_map, hlen]

/-- C5 witness: the two-document run `[Dgood, Dgood]`, one page each. -/
theorem merge_count_conservation_w :
    (∀ d ∈ [Dgood, Dgood], WFDoc d) ∧
    ∃ P2 : Nat × Dict,
      pagesRootOf ((mergeOutput [Dgood, Dgood]).getD default) = some P2 ∧
      dictGet "Count" P2.2 =
        some (Obj.integer (((([Dgood, Dgood] : List Doc).map
          (fun d => d.pages.length)).sum : Nat) : Int)) ∧
      ∃ kids, kidsIdsOf ((mergeOutput [Dgood, Dgood]).getD default) = some kids ∧
        kids.length = (([Dgood, Dgood] : List Doc).map (fun d => d.pages.length)).sum :=
  ⟨by decide, merge_count_conservation [Dgood, Dgood]
    ⟨mergePrinted [Dgood, Dgood], mergeTrace [Dgood, Dgood], mergeOutput [Dgood, Dgood]⟩
    ((mergeOutput [Dgood, Dgood]).getD default)
    (by decide) (by decide) rfl rfl⟩

theorem isEmpty_map_pages (f : Nat → Nat) (l : List Nat) :
    (l.map f).isEmpty = l.isEmpty := by
  cases l <;> rfl

theorem countP_shiftedDocsFrom (docs : List Doc) :
    ∀ b, (shiftedDocsFrom b docs).countP (fun d => !d.pages.isEmpty) =
      docs.countP (fun d => !d.pages.isEmpty) := by
  induction docs with
  | nil => intro b; rfl
  | cons d t ih =>
      intro b
      rw [shiftedDocsFrom_cons]
      simp only [List.countP_cons]
      rw [ih, show (renumberWith b d).pages = d.pages.map (· + (b - 1)) from rfl,
        isEmpty_map_pages]

/-- C6: for every merge, the bookmark forest holds exactly one top-level
bookmark per input document with at least one page, in input order, labelled
`Page_n` with `n` incrementing once per such document, at level 0, targeting
the composite identifier of that document's first page; hence the number of
top-level bookmarks equals the number of input documents with at least one
page. -/
theorem merge_bookmark_forest (docs : List Doc) :
    (loopSt docs).marks =
      (((shiftedDocs docs).filter (fun d => !d.pages.isEmpty)).enumFrom 1).map
        (fun jd => { title := "Page_" ++ toString jd.1,
                     color := ((0 : Nat), (0 : Nat), (1 : Nat)),
                     level := 0, target := jd.2.pages.headD 0, parent := none }) ∧
    (loopSt docs).marks.length = docs.countP (fun d => !d.pages.isEmpty) := by
  have h1 : (loopSt docs).marks =
      (((shiftedDocs docs).filter (fun d => !d.pages.isEmpty)).enumFrom 1).map
        (fun jd => { title := "Page_" ++ toString jd.1,
                     color := ((0 : Nat), (0 : Nat), (1 : Nat)),
                     level := 0, target := jd.2.pages.headD 0, parent := none }) := by
    have := loop_marks_go docs ⟨1, 1, [], [], []⟩
    rw [loopSt]
    rw [this]
    rw [List.nil_append, shiftedDocs]
  refine ⟨h1, ?_⟩
  rw [h1, List.length_map, List.enumFrom_length, ← List.countP_eq_length_filter,
    shiftedDocs, countP_shiftedDocsFrom]

/-- C7: code-bug demonstration.  On the well-formed one-page input `Dout`
(whose `Outlines` object occupies a smaller identifier than its root node,
so the full compaction renumber moves the root node), the merge succeeds, a
bookmark exists and an `Outlines` root object is materialized, yet the final
root node carries no `Outlines` reference: the reference was written to the
object occupying the root node's pre-compaction identifier (here the
page-tree root, identifier 2). -/
theorem merge_outlines_bug_at_Dout :
    WFDoc Dout ∧
    (mergeOutput [Dout]).isSome = true ∧
    (mergeOutput [Dout]).map (fun out => out.bookmarks.isEmpty) = some false ∧
    (mergeOutput [Dout]).map hasOutlinesRoot = some true ∧
    (mergeOutput [Dout]).map catalogHasOutlines = some false ∧
    ((mergeOutput [Dout]).bind (fun out => objDictAt out 2)).bind (dictGet "Outlines") =
      some (Obj.reference 4) ∧
    ((mergeOutput [Dout]).bind pagesRootOf).map Prod.fst = some 2 :=
  ⟨by decide, rfl, rfl, rfl, rfl, rfl, rfl⟩

/-- C8: for every sequence of well-formed input graphs processed in order,
the base identifier passed to the per-document renumbering is 1 for the
first graph and one plus the renumbered maximum of the previous graph for
every later graph, the loop's renumbering applies exactly these bases, and
consequently no two input graphs occupy overlapping identifier ranges in
the composite space (every identifier of an earlier graph is strictly below
every identifier of a later one). -/
theorem merge_renumber_bases (docs : List Doc)
    (hwf : ∀ d ∈ docs, ∀ e ∈ d.objects, 1 ≤ e.1 ∧ e.1 ≤ d.maxId) :
    (renumBases docs).length = docs.length ∧
    (docs ≠ [] → (renumBases docs).getD 0 0 = 1) ∧
    (∀ i, i + 1 < docs.length →
      (renumBases docs).getD (i + 1) 0 =
        ((shiftedDocs docs).getD i default).maxId + 1) ∧
    shiftedDocs docs = List.zipWith renumberWith (renumBases docs) docs ∧
    (∀ i j, i < j → j < docs.length →
      ∀ k1 ∈ keysOf ((shiftedDocs docs).getD i default).objects,
      ∀ k2 ∈ keysOf ((shiftedDocs docs).getD j default).objects, k1 < k2) := by
  refine ⟨renumBasesFrom_length 1 docs, ?_,
    renumBasesFrom_getD_succ 1 docs,
    shiftedDocsFrom_eq_zipWith 1 docs,
    shiftedDocsFrom_disjoint docs 1 (le_refl 1) hwf⟩
  intro hne
  cases docs with
  | nil => exact absurd rfl hne
  | cons d t => exact renumBasesFrom_getD_zero 1 d t

/-- C8 witness: the two-document run `[Dgood, Dgood]`. -/
theorem merge_renumber_bases_w :
    (∀ d ∈ [Dgood, Dgood], ∀ e ∈ d.objects, 1 ≤ e.1 ∧ e.1 ≤ d.maxId) ∧
    ((renumBases [Dgood, Dgood]).length = ([Dgood, Dgood] : List Doc).length ∧
    (([Dgood, Dgood] : List Doc) ≠ [] → (renumBases [Dgood, Dgood]).getD 0 0 = 1) ∧
    (∀ i, i + 1 < ([Dgood, Dgood] : List Doc).length →
      (renumBases [Dgood, Dgood]).getD (i + 1) 0 =
        ((shiftedDocs [Dgood, Dgood]).getD i default).maxId + 1) ∧
    shiftedDocs [Dgood, Dgood] =
      List.zipWith renumberWith (renumBases [Dgood, Dgood]) [Dgood, Dgood] ∧
    (∀ i j, i < j → j < ([Dgood, Dgood] : List Doc).length →
      ∀ k1 ∈ keysOf ((shiftedDocs [Dgood, Dgood]).getD i default).objects,
      ∀ k2 ∈ keysOf ((shiftedDocs [Dgood, Dgood]).getD j default).objects, k1 < k2)) :=
  ⟨by decide, merge_renumber_bases [Dgood, Dgood] (by decide)⟩

/-- C9 counterexample: on the successful run `[Dgood]`, the executed step
sequence performs the missing-page-tree-root abort check strictly before the
reparenting of the collected pages, contradicting the claimed order
(reparent first, both abort checks afterwards). -/
theorem merge_trace_cex :
    mergeTrace [Dgood] = [MStep.consolidateStep, MStep.checkPages,
      MStep.reparentPages, MStep.checkCatalog, MStep.finalizePages,
      MStep.finalizeCatalog, MStep.setTrailerRoot, MStep.recomputeMax,
      MStep.compactStep, MStep.adjustBookmarks, MStep.buildOutlines,
      MStep.setCatalogOutlines, MStep.compressStep, MStep.saveStep] ∧
    (mergeTrace [Dgood]).indexOf MStep.checkPages <
      (mergeTrace [Dgood]).indexOf MStep.reparentPages := by
  decide

/-- C9 (amended): in every run, the consolidation fold and the
missing-page-tree-root abort check come first, in that order, and whenever
the reparenting step executes it is immediately followed by the
missing-root-node abort check — i.e. the page-tree-root check precedes
reparenting and the root-node check follows it. -/
theorem merge_trace_order (docs : List Doc) :
    (mergeTrace docs).take 2 = [MStep.consolidateStep, MStep.checkPages] ∧
    (MStep.reparentPages ∈ mergeTrace docs →
      (mergeTrace docs).take 4 = [MStep.consolidateStep, MStep.checkPages,
        MStep.reparentPages, MStep.checkCatalog]) := by
  constructor
  · by_cases h1 : (consolOf docs).pagesObj.isNone <;> simp [mergeTrace, h1]
  · intro hmem
    by_cases h1 : (consolOf docs).pagesObj.isNone
    · simp [mergeTrace, h1] at hmem
    · by_cases h2 : (consolOf docs).catalog.isNone <;> simp [mergeTrace, h1, h2]

/-- C9 (amended) witness: the run `[Dgood]`, where reparenting executes. -/
theorem merge_trace_order_w :
    (mergeTrace [Dgood]).take 2 = [MStep.consolidateStep, MStep.checkPages] ∧
    (mergeTrace [Dgood]).take 4 = [MStep.consolidateStep, MStep.checkPages,
      MStep.reparentPages, MStep.checkCatalog] :=
  ⟨(merge_trace_order [Dgood]).1,
    (merge_trace_order [Dgood]).2 (List.mem_of_elem_eq_true (by rfl))⟩

/-- C10: for every successful merge, the output composite document carries
PDF version `1.5`, regardless of the versions of the inputs. -/
theorem merge_output_version (docs : List Doc) (r : MergeRes) (out : Doc)
    (hok : mergePdfs docs = Except.ok r) (hout : r.output = some out) :
    out.version = "1.5" := by
  obtain ⟨-, -, hro⟩ := mergePdfs_ok hok
  rw [hro, mergeOutput] at hout
  cases hass : assembleDoc docs with
  | none => rw [hass] at hout; simp at hout
  | some dc =>
      rw [hass] at hout
      simp at hout
      rw [← hout, postAssemble_version]
      cases hpo : (consolOf docs).pagesObj with
      | none => simp [assembleDoc, hpo] at hass
      | some pobj =>
          cases hco : (consolOf docs).catalog with
          | none => simp [assembleDoc, hpo, hco] at hass
          | some cobj =>
              simp only [assembleDoc, hpo, hco, Option.some.injEq] at hass
              rw [← congrArg Prod.fst hass]

/-- C10 witness: the run `[Dgood]`, whose input declares version `1.3`. -/
theorem merge_output_version_w :
    Dgood.version = "1.3" ∧
    ((mergeOutput [Dgood]).getD default).version = "1.5" :=
  ⟨rfl, merge_output_version [Dgood]
    ⟨mergePrinted [Dgood], mergeTrace [Dgood], mergeOutput [Dgood]⟩
    ((mergeOutput [Dgood]).getD default) rfl rfl⟩

end Pdft
